import Mathlib

/-!
# gotmc: a time-limited, request-coalescing cache (`tmc/tmc.go`)

A shallow embedding of `TMCache` and its operations, followed by theorems about
them.

## Modelling conventions

* `tmc.items` is a Go `map[string]*item`.  It is modelled as
  `Option (AList ..)`: `none` is the nil map that `Close` leaves behind,
  `some m` a map with unique keys.  The values are pointers, modelled as
  indices into `heap`, the list of every `item` allocated so far
  (allocation appends, nothing is ever freed).
* A `chan struct{}` that is only ever closed is modelled by a `Bool`
  (`true` = closed).
* `int64` values are `Int`s; the one addition in the source is wrapped
  with `wrapInt64`.
* The computation function `tmc.f` may have effects (in the repository it
  is an HTTP fetch).  It is modelled as a function of the key and of the
  state `W` of the outside world, returning its result and the new state
  of the world.  The field `calls` is a ghost log of the keys with which
  `f` was invoked.
* `time.Now().UnixNano()` is a parameter `now` of the operation that reads
  the clock.
* The mutex makes the critical sections atomic; each critical section is
  one function below.
-/

namespace tmc

/-- Two's-complement wrap-around of a mathematical integer into `int64`. -/
def wrapInt64 (x : Int) : Int := (x + 2 ^ 63) % 2 ^ 64 - 2 ^ 63

/-- Membership in the range of `int64`. -/
def isInt64 (x : Int) : Prop := -(2 ^ 63) ≤ x ∧ x < 2 ^ 63

instance (x : Int) : Decidable (isInt64 x) := by
  unfold isInt64; infer_instance

/-- Go: `type result struct { value interface{}; err error }`.
`none` is the nil interface value. -/
structure result (V E : Type) where
  value : Option V
  err : Option E

/-- Go: `type item struct { done chan struct{}; deadline int64; res result }`. -/
structure item (V E : Type) where
  done : Bool
  deadline : Int
  res : result V E

/-- Go: `type Func func(key string) (interface{}, error)`, with the state of
the outside world made explicit. -/
abbrev Func (V E W : Type) := String → W → (Option V × Option E) × W

/-- Go: `type TMCache struct { done; mu; items; f }`, together with the heap
of allocated items, the state of the outside world and the ghost call log. -/
structure TMCache (V E W : Type) where
  done : Bool
  items : Option (AList (fun _ : String => Nat))
  f : Func V E W
  heap : List (item V E)
  world : W
  calls : List String

/-- The ways in which an operation can fail to return. -/
inductive Fault where
  /-- Go run-time panic: assignment to entry in nil map. -/
  | nilMapAssign
  /-- Go run-time panic: close of closed channel. -/
  | closeOfClosed
  /-- The caller waits on a channel that is not closed. -/
  | blocked
  /-- A pointer that was never allocated (excluded by Go's memory safety). -/
  | badPointer
  deriving DecidableEq

variable {V E W : Type}

/-- The values a `Get` returns: `(value, chit, err)`. -/
abbrev GetResult (V E : Type) := Option V × Bool × Option E

/-- Go: `NewTMCache` (lines 30-40), without the ticker goroutine, whose sweeps
are `sweepsAt` below. -/
def NewTMCache (fn : Func V E W) (w : W) : TMCache V E W :=
  { done := false, items := some ∅, f := fn, heap := [], world := w, calls := [] }

/-- Apply `g` to the item at address `p`. -/
def updateItem (h : List (item V E)) (p : Nat) (g : item V E → item V E) :
    List (item V E) :=
  match h[p]? with
  | some i => h.set p (g i)
  | none => h

/-- One iteration of the loop of `routineCleanup` (lines 47-51), for the
entry `k ↦ p`: `if i.deadline <= now { delete(tmc.items, k) }`. -/
def cleanupStep (h : List (item V E)) (now : Int)
    (acc : AList (fun _ : String => Nat)) (e : Sigma (fun _ : String => Nat)) :
    AList (fun _ : String => Nat) :=
  match h[e.2]? with
  | some i => if i.deadline ≤ now then acc.erase e.1 else acc
  | none => acc

/-- Go: `routineCleanup` (lines 42-54), with the clock reading as a
parameter.  The loop ranges over the entries of the map and deletes from the
same map; ranging over a nil map runs no iteration. -/
def routineCleanup (now : Int) (c : TMCache V E W) : TMCache V E W :=
  match c.items with
  | none => c
  | some m => { c with items := some (m.entries.foldl (cleanupStep c.heap now) m) }

/-- Go: the critical section of `Get` (lines 72-80 and 85-87).  Returns the
pointer `i`, the flag `chit` and the new state.  On a nil map the lookup
yields nil and the assignment `tmc.items[key] = i` panics. -/
def getLocked (key : String) (ttl now : Int) (c : TMCache V E W) :
    Except Fault (Nat × Bool × TMCache V E W) :=
  match c.items with
  | none => .error .nilMapAssign
  | some m =>
    match m.lookup key with
    | none =>
      let p := c.heap.length
      let i : item V E :=
        { done := false, deadline := wrapInt64 (now + ttl), res := ⟨none, none⟩ }
      .ok (p, false, { c with heap := c.heap ++ [i], items := some (m.insert key p) })
    | some p => .ok (p, true, c)

/-- Go: line 82, `i.res.value, i.res.err = tmc.f(key)`. -/
def getCompute (key : String) (p : Nat) (c : TMCache V E W) : TMCache V E W :=
  let r := c.f key c.world
  { c with
    world := r.2
    calls := c.calls ++ [key]
    heap := updateItem c.heap p (fun i => { i with res := ⟨r.1.1, r.1.2⟩ }) }

/-- Go: line 84, `close(i.done)`. -/
def getClose (p : Nat) (c : TMCache V E W) : TMCache V E W :=
  { c with heap := updateItem c.heap p (fun i => { i with done := true }) }

/-- Go: line 88 and line 90 for a caller that found an entry: `<-i.done`, then
`return i.res.value, chit, i.res.err`. -/
def getWait (p : Nat) (c : TMCache V E W) : Except Fault (GetResult V E) :=
  match c.heap[p]? with
  | none => .error .badPointer
  | some i => if i.done then .ok (i.res.value, true, i.res.err) else .error .blocked

/-- Go: line 90 for the caller that created the entry. -/
def getReturn (p : Nat) (c : TMCache V E W) : Except Fault (GetResult V E) :=
  match c.heap[p]? with
  | none => .error .badPointer
  | some i => .ok (i.res.value, false, i.res.err)

/-- Go: `Get` (lines 70-91) run by one caller from start to end with nothing
else running in between. -/
def Get (key : String) (ttl now : Int) (c : TMCache V E W) :
    Except Fault (GetResult V E × TMCache V E W) :=
  match getLocked key ttl now c with
  | .error e => .error e
  | .ok (p, true, c1) =>
    match getWait p c1 with
    | .error e => .error e
    | .ok r => .ok (r, c1)
  | .ok (p, false, c1) =>
    let c2 := getClose p (getCompute key p c1)
    match getReturn p c2 with
    | .error e => .error e
    | .ok r => .ok (r, c2)

/-- Go: `Del` (lines 93-97); `delete` on a nil map is a no-op. -/
def Del (key : String) (c : TMCache V E W) : TMCache V E W :=
  match c.items with
  | none => c
  | some m => { c with items := some (m.erase key) }

/-- Go: `EraseAll` (lines 99-103): range over the keys, deleting each. -/
def EraseAll (c : TMCache V E W) : TMCache V E W :=
  match c.items with
  | none => c
  | some m => { c with items := some (m.keys.foldl (fun acc k => acc.erase k) m) }

/-- Go: `Close` (lines 105-113): `close(tmc.done)` (a panic when the channel
is closed already), `EraseAll`, `tmc.items = nil`. -/
def Close (c : TMCache V E W) : Except Fault (TMCache V E W) :=
  if c.done then .error .closeOfClosed
  else .ok { EraseAll { c with done := true } with items := none }

/-- The sequential operations of the public interface and the sweep. -/
inductive Op where
  | get (key : String) (ttl now : Int)
  | del (key : String)
  | eraseAll
  | sweep (now : Int)
  | close

/-- Run one operation to its end; the values a `Get` returns are dropped. -/
def Op.apply : Op → TMCache V E W → Except Fault (TMCache V E W)
  | .get key ttl now, c =>
    match Get key ttl now c with
    | .error e => .error e
    | .ok (_, c') => .ok c'
  | .del key, c => .ok (Del key c)
  | .eraseAll, c => .ok (EraseAll c)
  | .sweep now, c => .ok (routineCleanup now c)
  | .close, c => Close c

/-- Run a sequence of operations one after the other. -/
def runOps : List Op → TMCache V E W → Except Fault (TMCache V E W)
  | [], c => .ok c
  | o :: os, c =>
    match o.apply c with
    | .error e => .error e
    | .ok c' => runOps os c'

/-- The pointer stored under `key`; a nil map has no entry. -/
def lookupPtr (c : TMCache V E W) (key : String) : Option Nat :=
  match c.items with
  | none => none
  | some m => m.lookup key

/-- The item stored under `key`, read through its pointer. -/
def lookupItem (c : TMCache V E W) (key : String) : Option (item V E) :=
  match lookupPtr c key with
  | none => none
  | some p => c.heap[p]?

/-- A state between two sequential operations: every entry of the map points
to an allocated item whose `done` channel is closed. -/
def Settled (c : TMCache V E W) : Prop :=
  ∀ key p, lookupPtr c key = some p → ∃ i, c.heap[p]? = some i ∧ i.done = true

/-- The item at address `p` exists and its deadline is at or before `now`:
the test `i.deadline <= now` of `routineCleanup`. -/
def expiredAt (h : List (item V E)) (now : Int) (p : Nat) : Bool :=
  match h[p]? with
  | some i => decide (i.deadline ≤ now)
  | none => false

/-- The operation is a `Get`. -/
def Op.isGet : Op → Bool
  | .get _ _ _ => true
  | _ => false

/-- The operation leaves an entry of `key` with deadline `d` in the map:
a `Get`, a `Del` of another key, or a sweep at a time before `d`. -/
def Op.keeps (key : String) (d : Int) : Op → Prop
  | .get _ _ _ => True
  | .del k => k ≠ key
  | .eraseAll => False
  | .sweep now => now < d
  | .close => False

/-- The operation removes an entry of `key` with deadline `d` from the map:
`Del key`, `EraseAll`, or a sweep at a time at or after `d`. -/
def Op.removes (key : String) (d : Int) : Op → Prop
  | .get _ _ _ => False
  | .del k => k = key
  | .eraseAll => True
  | .sweep now => d ≤ now
  | .close => False

/-- The operation is neither a `Get` of `key` nor `Close`. -/
def Op.noGetOf (key : String) : Op → Prop
  | .get k _ _ => k ≠ key
  | .close => False
  | _ => True

/-- Go: `cleanup` (lines 56-68).  Every tick of the ticker runs
`routineCleanup`, which reads the clock itself (line 43), some time after the
tick.  The sweeps that run one after the other are given by the clock readings
of their `routineCleanup`. -/
def sweepsAt (ts : List Int) : List Op := ts.map Op.sweep

/-- The scenario of `TestKeyCleanedAfterTTL`: on a cache fresh from
`NewTMCache`, `Get key ttl` reads the clock at `t1`, the sweeper runs
`routineCleanup` with the clock readings `sweeps`, and a second `Get key ttl`
reads the clock at `t2`.  Returns what the two calls return.  (Sweeps before
the first call find an empty map.) -/
def getSweepsGet (fn : Func V E W) (w : W) (key : String) (ttl t1 : Int)
    (sweeps : List Int) (t2 : Int) : Except Fault (GetResult V E × GetResult V E) :=
  match Get key ttl t1 (NewTMCache fn w) with
  | .error e => .error e
  | .ok (r1, c1) =>
    match runOps (sweepsAt sweeps) c1 with
    | .error e => .error e
    | .ok c2 =>
      match Get key ttl t2 c2 with
      | .error e => .error e
      | .ok (r2, _) => .ok (r1, r2)

/-! ### Concurrent callers

Several goroutines run `Get` at the same time.  The mutex makes lines 72-80
(or 72-73 and 85-87) one atomic step; line 82 (the call of `tmc.f` and the
store of its result) and line 84 (`close(i.done)`) are steps of their own, and
so is line 88 (`<-i.done`), which can be taken only once the channel is
closed.  The reads of `i.res` at line 90 happen after the channel is closed,
when the item does not change any more, and are merged into the step
before. -/

/-- Where a caller of `Get` stands. -/
inductive Pc (V E : Type) where
  /-- Before line 72. -/
  | start
  /-- The caller created the entry `p` (lines 72-80) and is at line 82. -/
  | computing (p : Nat)
  /-- The caller stored the result (line 82) and is at line 84. -/
  | closing (p : Nat)
  /-- The caller found the entry `p` (lines 72-73, 85-87) and is at line 88. -/
  | waiting (p : Nat)
  /-- The call returned `r`. -/
  | returned (r : GetResult V E)

/-- A call `Get(key, ttl)` in progress. -/
structure Caller (V E : Type) where
  key : String
  ttl : Int
  pc : Pc V E

/-- The cache and the calls of `Get` in progress. -/
structure Sys (V E W : Type) where
  cache : TMCache V E W
  callers : List (Caller V E)

/-- The next atomic step of one caller, with the clock reading `now` (used at
line 76 only); `none` when the caller cannot take a step: it has returned, it
waits on a channel that is not closed, or it panics. -/
def stepCaller (now : Int) (cl : Caller V E) (c : TMCache V E W) :
    Option (Caller V E × TMCache V E W) :=
  match cl.pc with
  | .start =>
    match getLocked cl.key cl.ttl now c with
    | .error _ => none
    | .ok (p, true, c') => some ({ cl with pc := .waiting p }, c')
    | .ok (p, false, c') => some ({ cl with pc := .computing p }, c')
  | .computing p => some ({ cl with pc := .closing p }, getCompute cl.key p c)
  | .closing p =>
    match getReturn p (getClose p c) with
    | .error _ => none
    | .ok r => some ({ cl with pc := .returned r }, getClose p c)
  | .waiting p =>
    match getWait p c with
    | .error _ => none
    | .ok r => some ({ cl with pc := .returned r }, c)
  | .returned _ => none

/-- What can happen next in the system: a step of the caller number `t`, or
one of the operations that run under the lock (or, for `EraseAll`, without)
in one piece. -/
inductive Event where
  | caller (t : Nat) (now : Int)
  | del (key : String)
  | eraseAll
  | sweep (now : Int)

/-- One event; `none` when the caller named by the event cannot take a step. -/
def Sys.fire (ev : Event) (s : Sys V E W) : Option (Sys V E W) :=
  match ev with
  | .caller t now =>
    match s.callers[t]? with
    | none => none
    | some cl =>
      match stepCaller now cl s.cache with
      | none => none
      | some (cl', c') => some { cache := c', callers := s.callers.set t cl' }
  | .del key => some { s with cache := Del key s.cache }
  | .eraseAll => some { s with cache := EraseAll s.cache }
  | .sweep now => some { s with cache := routineCleanup now s.cache }

/-- A sequence of events, an interleaving; `none` when one of them cannot
happen. -/
def Sys.run : List Event → Sys V E W → Option (Sys V E W)
  | [], s => some s
  | ev :: evs, s =>
    match s.fire ev with
    | none => none
    | some s' => Sys.run evs s'

/-- An interleaving of steps of callers only: the caller and the clock reading
of each step. -/
def callerSteps (sched : List (Nat × Int)) : List Event :=
  sched.map (fun x => Event.caller x.1 x.2)

/-- The call has returned. -/
def Pc.isReturned : Pc V E → Bool
  | .returned _ => true
  | _ => false

/-- Every call has returned. -/
def Sys.finished (s : Sys V E W) : Bool := s.callers.all (fun cl => cl.pc.isReturned)

/-- The calls `Get(key, ttl)`, one for each `ttl` of the list, all about to
start on the cache `c`. -/
def Sys.sameKey (c : TMCache V E W) (key : String) (ttls : List Int) : Sys V E W :=
  { cache := c, callers := ttls.map (fun ttl => ⟨key, ttl, .start⟩) }

/-- The number of steps a caller has left at most. -/
def Pc.stepsLeft : Pc V E → Nat
  | .start => 3
  | .computing _ => 2
  | .closing _ => 1
  | .waiting _ => 1
  | .returned _ => 0

/-- The number of steps the callers have left at most. -/
def Sys.stepsLeft (s : Sys V E W) : Nat := (s.callers.map (fun cl => cl.pc.stepsLeft)).sum

/-- The states that calls of `Get` on one key reach from a cache `c` without
entry for that key.  Either nothing has happened yet, or the entry exists, at
the address `c.heap.length`, and one caller, its creator, is at line 82, at
line 84, or has returned the result of the computation with `chit = false`;
every other caller is at the start, waits for this entry, or has returned the
same result with `chit = true`. -/
def Coalesced (c : TMCache V E W) (key : String) (s : Sys V E W) : Prop :=
  (∀ cl ∈ s.callers, cl.key = key) ∧ s.cache.f = c.f ∧ s.cache.items ≠ none
  ∧ ((s.cache = c ∧ ∀ cl ∈ s.callers, cl.pc = .start)
    ∨ (lookupPtr s.cache key = some c.heap.length
      ∧ ∃ (t0 : Nat) (cl0 : Caller V E) (d : Int), s.callers[t0]? = some cl0
        ∧ (∀ (t : Nat) (cl : Caller V E), s.callers[t]? = some cl → t ≠ t0 →
            cl.pc = .start ∨ cl.pc = .waiting c.heap.length
            ∨ cl.pc = .returned ((c.f key c.world).1.1, true, (c.f key c.world).1.2))
        ∧ ((cl0.pc = .computing c.heap.length
            ∧ s.cache.heap[c.heap.length]? = some ⟨false, d, ⟨none, none⟩⟩
            ∧ s.cache.calls = c.calls ∧ s.cache.world = c.world)
          ∨ (cl0.pc = .closing c.heap.length
            ∧ s.cache.heap[c.heap.length]?
                = some ⟨false, d, ⟨(c.f key c.world).1.1, (c.f key c.world).1.2⟩⟩
            ∧ s.cache.calls = c.calls ++ [key])
          ∨ (cl0.pc = .returned ((c.f key c.world).1.1, false, (c.f key c.world).1.2)
            ∧ s.cache.heap[c.heap.length]?
                = some ⟨true, d, ⟨(c.f key c.world).1.1, (c.f key c.world).1.2⟩⟩
            ∧ s.cache.calls = c.calls ++ [key]))))

/-- The event is a step of a caller. -/
def Event.isCaller : Event → Bool
  | .caller _ _ => true
  | _ => false

/-- A cache fresh from `NewTMCache` and the calls `Get(key, ttl)`, one for each
pair of the list, all about to start. -/
def Sys.initial (fn : Func V E W) (w : W) (gets : List (String × Int)) : Sys V E W :=
  { cache := NewTMCache fn w, callers := gets.map (fun g => ⟨g.1, g.2, .start⟩) }

/-- Two different callers are at line 82 for `key` at the same time: two calls
of the computation function for `key` are started and not finished. -/
def Sys.twoInFlight (s : Sys V E W) (key : String) : Prop :=
  ∃ (t t' : Nat) (cl cl' : Caller V E) (p p' : Nat),
    t ≠ t' ∧ s.callers[t]? = some cl ∧ s.callers[t']? = some cl'
    ∧ cl.key = key ∧ cl'.key = key ∧ cl.pc = .computing p ∧ cl'.pc = .computing p'

/-- Every caller at line 82 holds an allocated item, and two different callers
at line 82 hold different items. -/
def Sys.distinctInFlight (s : Sys V E W) : Prop :=
  (∀ (t : Nat) (cl : Caller V E) (p : Nat),
      s.callers[t]? = some cl → cl.pc = .computing p → p < s.cache.heap.length)
  ∧ (∀ (t t' : Nat) (cl cl' : Caller V E) (p p' : Nat), t ≠ t' →
      s.callers[t]? = some cl → s.callers[t']? = some cl' →
      cl.pc = .computing p → cl'.pc = .computing p' → p ≠ p')

/-- The item of every caller at line 82 is the one the map holds for the key
of that caller. -/
def Sys.inFlightInMap (s : Sys V E W) : Prop :=
  ∀ (t : Nat) (cl : Caller V E) (p : Nat),
    s.callers[t]? = some cl → cl.pc = .computing p → lookupPtr s.cache cl.key = some p

/-- The event leaves in place the entry of every caller whose computation is in
flight: for each caller at line 82 whose item is the one the map holds for
its key, the map still holds that item for the key after the event. -/
def Sys.spares (s : Sys V E W) (ev : Event) : Bool :=
  match s.fire ev with
  | none => true
  | some s' =>
    s.callers.all (fun cl =>
      match cl.pc with
      | .computing p =>
        lookupPtr s.cache cl.key != some p || lookupPtr s'.cache cl.key == some p
      | _ => true)

/-- Every event of the run, fired from the state the run has reached, spares
the entries whose computation is in flight. -/
def Sys.sparingRun : List Event → Sys V E W → Bool
  | [], _ => true
  | ev :: evs, s =>
    s.spares ev &&
      (match s.fire ev with
        | none => true
        | some s' => Sys.sparingRun evs s')

/-- The computation function of `tmc_test.go`: `return "value", nil`. -/
def valueFunc : Func String String Unit := fun _ w => ((some "value", none), w)

/-- The cache of `TestKeyIsCached` right after construction. -/
def testCache : TMCache String String Unit := NewTMCache valueFunc ()

/-- A computation function that fails on its first invocation and succeeds
afterwards; the world is the number of invocations so far. -/
def flakyFunc : Func String String Nat := fun key n =>
  (if n = 0 then (none, some "timeout") else (some key, none), n + 1)

/-- A fresh cache in front of `flakyFunc`. -/
def flakyCache : TMCache String String Nat := NewTMCache flakyFunc 0

/-- The cache of `TestKeyIsCached` after its first `Get("key", 10s)` at time 0. -/
def warmCache : TMCache String String Unit :=
  { done := false
    items := some ((∅ : AList (fun _ : String => Nat)).insert "key" 0)
    f := valueFunc
    heap := [⟨true, 10000000000, ⟨some "value", none⟩⟩]
    world := ()
    calls := ["key"] }

/-! ## Theorems -/

/-! ### The map -/

theorem cleanupStep_eq (h : List (item V E)) (now : Int)
    (acc : AList (fun _ : String => Nat)) (e : Sigma (fun _ : String => Nat)) :
    cleanupStep h now acc e = if expiredAt h now e.2 then acc.erase e.1 else acc := by
  unfold cleanupStep expiredAt
  cases h[e.2]? with
  | none => simp
  | some i => by_cases hd : i.deadline ≤ now <;> simp [hd]

theorem lookup_foldl_cleanupStep (h : List (item V E)) (now : Int)
    (l : List (Sigma (fun _ : String => Nat))) :
    ∀ (acc : AList (fun _ : String => Nat)) (k : String),
      (l.foldl (cleanupStep h now) acc).lookup k
        = if (∃ e ∈ l, e.1 = k ∧ expiredAt h now e.2 = true) then none else acc.lookup k := by
  induction l with
  | nil => intro acc k; simp
  | cons e l ih =>
    intro acc k
    rw [List.foldl_cons, ih, cleanupStep_eq]
    by_cases hl : ∃ e' ∈ l, e'.1 = k ∧ expiredAt h now e'.2 = true
    · have : ∃ e' ∈ e :: l, e'.1 = k ∧ expiredAt h now e'.2 = true := by
        obtain ⟨e', he', h1⟩ := hl
        exact ⟨e', List.mem_cons_of_mem _ he', h1⟩
      rw [if_pos hl, if_pos this]
    · rw [if_neg hl]
      by_cases hx : expiredAt h now e.2 = true
      · rw [if_pos hx]
        by_cases hk : e.1 = k
        · have : ∃ e' ∈ e :: l, e'.1 = k ∧ expiredAt h now e'.2 = true :=
            ⟨e, List.mem_cons_self _ _, hk, hx⟩
          rw [if_pos this, ← hk, AList.lookup_erase]
        · have : ¬ ∃ e' ∈ e :: l, e'.1 = k ∧ expiredAt h now e'.2 = true := by
            rintro ⟨e', he', h1, h2⟩
            rcases List.mem_cons.1 he' with rfl | he'
            · exact hk h1
            · exact hl ⟨e', he', h1, h2⟩
          rw [if_neg this, AList.lookup_erase_ne (Ne.symm hk)]
      · rw [if_neg hx]
        have : ¬ ∃ e' ∈ e :: l, e'.1 = k ∧ expiredAt h now e'.2 = true := by
          rintro ⟨e', he', h1, h2⟩
          rcases List.mem_cons.1 he' with rfl | he'
          · exact hx h2
          · exact hl ⟨e', he', h1, h2⟩
        rw [if_neg this]

/-- The map after a sweep: the entries of the old map that are not expired. -/
theorem lookupPtr_routineCleanup (now : Int) (c : TMCache V E W) (k : String) :
    lookupPtr (routineCleanup now c) k
      = (lookupPtr c k).filter (fun p => !expiredAt c.heap now p) := by
  unfold routineCleanup lookupPtr
  cases hm : c.items with
  | none => simp [hm]
  | some m =>
    simp only [lookup_foldl_cleanupStep]
    cases hk : m.lookup k with
    | none => simp [Option.filter]
    | some p =>
      have hmem : (⟨k, p⟩ : Sigma (fun _ : String => Nat)) ∈ m.entries :=
        AList.mem_lookup_iff.1 (by rw [hk]; rfl)
      by_cases hx : expiredAt c.heap now p = true
      · have : ∃ e ∈ m.entries, e.1 = k ∧ expiredAt c.heap now e.2 = true :=
          ⟨⟨k, p⟩, hmem, rfl, hx⟩
        rw [if_pos this]; simp [Option.filter, hx]
      · have : ¬ ∃ e ∈ m.entries, e.1 = k ∧ expiredAt c.heap now e.2 = true := by
          rintro ⟨⟨k', p'⟩, he, h1, h2⟩
          simp only at h1 h2
          subst h1
          have : p' ∈ m.lookup k' := AList.mem_lookup_iff.2 he
          rw [hk] at this
          cases this
          exact hx h2
        rw [if_neg this]; simp [Option.filter, hx]

theorem routineCleanup_heap (now : Int) (c : TMCache V E W) :
    (routineCleanup now c).heap = c.heap
    ∧ (routineCleanup now c).f = c.f
    ∧ (routineCleanup now c).world = c.world
    ∧ (routineCleanup now c).calls = c.calls
    ∧ (routineCleanup now c).done = c.done
    ∧ ((routineCleanup now c).items = none ↔ c.items = none) := by
  unfold routineCleanup
  cases hm : c.items <;> simp [hm]

/-! ### `Get` -/

/-- A `Get` of a key without entry: the result and the state it leaves. -/
theorem Get_miss (c : TMCache V E W) (m : AList (fun _ : String => Nat))
    (key : String) (ttl now : Int)
    (hm : c.items = some m) (hk : m.lookup key = none) :
    ∃ c', Get key ttl now c
        = .ok (((c.f key c.world).1.1, false, (c.f key c.world).1.2), c')
      ∧ c'.items = some (m.insert key c.heap.length)
      ∧ c'.heap = c.heap ++ [⟨true, wrapInt64 (now + ttl),
          ⟨(c.f key c.world).1.1, (c.f key c.world).1.2⟩⟩]
      ∧ c'.calls = c.calls ++ [key]
      ∧ c'.world = (c.f key c.world).2
      ∧ c'.f = c.f ∧ c'.done = c.done := by
  simp [Get, getLocked, hm, hk, getReturn, getClose, getCompute, updateItem]

/-- A `Get` of a key whose entry is complete returns the stored result and
changes nothing. -/
theorem Get_hit (c : TMCache V E W) (key : String) (ttl now : Int) (p : Nat)
    (i : item V E) (hk : lookupPtr c key = some p) (hi : c.heap[p]? = some i)
    (hd : i.done = true) :
    Get key ttl now c = .ok ((i.res.value, true, i.res.err), c) := by
  unfold lookupPtr at hk
  cases hm : c.items with
  | none => simp [hm] at hk
  | some m =>
    simp only [hm] at hk
    simp [Get, getLocked, hm, hk, getWait, hi, hd]

theorem lookupPtr_of_items (c : TMCache V E W) (m : AList (fun _ : String => Nat))
    (hm : c.items = some m) (key : String) : lookupPtr c key = m.lookup key := by
  simp [lookupPtr, hm]

theorem getElem?_append_of_some (h : List (item V E)) (x : item V E) (p : Nat)
    (i : item V E) (hi : h[p]? = some i) : (h ++ [x])[p]? = some i := by
  have hp : p < h.length := by
    by_contra hlt
    rw [List.getElem?_eq_none (Nat.le_of_not_lt hlt)] at hi
    cases hi
  rw [List.getElem?_append_left hp, hi]

/-- What a sequential `Get` of any key does to a settled, open cache: it
returns, leaves the cache settled and open, keeps every complete entry, and
adds no entry for another key. -/
theorem Get_settled (c : TMCache V E W) (key : String) (ttl now : Int)
    (hs : Settled c) (ho : c.items ≠ none) :
    ∃ r c', Get key ttl now c = .ok (r, c')
      ∧ Settled c' ∧ c'.items ≠ none ∧ c'.f = c.f
      ∧ (∀ k p i, lookupPtr c k = some p → c.heap[p]? = some i →
          lookupPtr c' k = some p ∧ c'.heap[p]? = some i)
      ∧ (∀ k, k ≠ key → lookupPtr c' k = lookupPtr c k) := by
  cases hm : c.items with
  | none => exact absurd hm ho
  | some m =>
    cases hk : m.lookup key with
    | some p =>
      have hp : lookupPtr c key = some p := by rw [lookupPtr_of_items c m hm, hk]
      obtain ⟨i, hi, hd⟩ := hs key p hp
      refine ⟨_, c, Get_hit c key ttl now p i hp hi hd, hs, ho, rfl, ?_, ?_⟩
      · intro k q j h1 h2; exact ⟨h1, h2⟩
      · intro k _; rfl
    | none =>
      obtain ⟨c', hg, hitems, hheap, -, -, hf, -⟩ := Get_miss c m key ttl now hm hk
      refine ⟨_, c', hg, ?_, ?_, hf, ?_, ?_⟩
      · intro k q hq
        rw [lookupPtr_of_items c' _ hitems] at hq
        by_cases hkk : k = key
        · subst hkk
          rw [AList.lookup_insert] at hq
          cases hq
          refine ⟨⟨true, wrapInt64 (now + ttl),
            ⟨(c.f k c.world).1.1, (c.f k c.world).1.2⟩⟩, ?_, rfl⟩
          rw [hheap]; simp
        · rw [AList.lookup_insert_ne hkk] at hq
          obtain ⟨i, hi, hd⟩ := hs k q (by rw [lookupPtr_of_items c m hm, hq])
          exact ⟨i, by rw [hheap]; exact getElem?_append_of_some _ _ _ _ hi, hd⟩
      · rw [hitems]; simp
      · intro k q j h1 h2
        rw [lookupPtr_of_items c m hm] at h1
        have hkk : k ≠ key := by
          rintro rfl; rw [hk] at h1; cases h1
        refine ⟨?_, ?_⟩
        · rw [lookupPtr_of_items c' _ hitems, AList.lookup_insert_ne hkk, h1]
        · rw [hheap]; exact getElem?_append_of_some _ _ _ _ h2
      · intro k hkk
        rw [lookupPtr_of_items c' _ hitems, lookupPtr_of_items c m hm,
          AList.lookup_insert_ne hkk]

/-! ### `Del`, `EraseAll`, `Close` -/

theorem lookupPtr_Del (c : TMCache V E W) (key k : String) :
    lookupPtr (Del key c) k = if k = key then none else lookupPtr c k := by
  unfold Del lookupPtr
  cases hm : c.items with
  | none => simp [hm]
  | some m =>
    by_cases hk : k = key
    · subst hk; simp
    · simp [hk, AList.lookup_erase_ne hk]

theorem Del_frame (c : TMCache V E W) (key : String) :
    (Del key c).heap = c.heap ∧ (Del key c).f = c.f ∧ (Del key c).world = c.world
    ∧ (Del key c).calls = c.calls ∧ (Del key c).done = c.done
    ∧ ((Del key c).items = none ↔ c.items = none) := by
  unfold Del
  cases hm : c.items <;> simp [hm]

theorem lookup_foldl_erase (ks : List String) :
    ∀ (acc : AList (fun _ : String => Nat)) (k : String),
      (ks.foldl (fun a x => a.erase x) acc).lookup k
        = if k ∈ ks then none else acc.lookup k := by
  induction ks with
  | nil => intro acc k; simp
  | cons x ks ih =>
    intro acc k
    rw [List.foldl_cons, ih]
    by_cases h1 : k ∈ ks
    · simp [h1]
    · by_cases h2 : k = x
      · subst h2; simp [h1]
      · simp [h1, h2, AList.lookup_erase_ne h2]

theorem lookupPtr_EraseAll (c : TMCache V E W) (k : String) :
    lookupPtr (EraseAll c) k = none := by
  unfold EraseAll lookupPtr
  cases hm : c.items with
  | none => simp [hm]
  | some m =>
    simp only [lookup_foldl_erase]
    by_cases hk : k ∈ m.keys
    · simp [hk]
    · rw [if_neg hk]
      exact AList.lookup_eq_none.2 (fun h => hk (AList.mem_keys.1 h))

theorem EraseAll_frame (c : TMCache V E W) :
    (EraseAll c).heap = c.heap ∧ (EraseAll c).f = c.f ∧ (EraseAll c).world = c.world
    ∧ (EraseAll c).calls = c.calls ∧ (EraseAll c).done = c.done
    ∧ ((EraseAll c).items = none ↔ c.items = none) := by
  unfold EraseAll
  cases hm : c.items <;> simp [hm]

/-- A map all of whose lookups fail has no entries. -/
theorem entries_eq_nil_of_lookup (m : AList (fun _ : String => Nat))
    (h : ∀ k, m.lookup k = none) : m.entries = [] := by
  cases he : m.entries with
  | nil => rfl
  | cons e l =>
    have hmem : (⟨e.1, e.2⟩ : Sigma (fun _ : String => Nat)) ∈ m.entries := by
      rw [he]; exact List.mem_cons_self _ _
    have : e.2 ∈ m.lookup e.1 := AList.mem_lookup_iff.2 hmem
    rw [h e.1] at this
    cases this

theorem Settled_of_sub (c c' : TMCache V E W) (hh : c'.heap = c.heap)
    (hsub : ∀ k p, lookupPtr c' k = some p → lookupPtr c k = some p)
    (hs : Settled c) : Settled c' := by
  intro k p hp
  rw [hh]
  exact hs k p (hsub k p hp)

theorem lookupPtr_ne_none_open (c : TMCache V E W) (k : String) (p : Nat)
    (h : lookupPtr c k = some p) : c.items ≠ none := by
  intro hn
  simp [lookupPtr, hn] at h

/-! ### Sequences of operations -/

/-- Every operation other than `Close` returns on a settled, open cache and
leaves it settled and open; it keeps the entries it is said to keep and adds
an entry only for the key of a `Get`. -/
theorem apply_settled (o : Op) (c : TMCache V E W) (hs : Settled c)
    (ho : c.items ≠ none) (hc : o ≠ .close) :
    ∃ c', o.apply c = .ok c' ∧ Settled c' ∧ c'.items ≠ none ∧ c'.f = c.f
      ∧ (∀ k p i, lookupPtr c k = some p → c.heap[p]? = some i →
          o.keeps k i.deadline → lookupPtr c' k = some p ∧ c'.heap[p]? = some i)
      ∧ (∀ k, lookupPtr c k = none → o.noGetOf k → lookupPtr c' k = none) := by
  cases o with
  | close => exact absurd rfl hc
  | get key ttl now =>
    obtain ⟨r, c', hg, hs', ho', hf, hkeep, hother⟩ := Get_settled c key ttl now hs ho
    refine ⟨c', by simp [Op.apply, hg], hs', ho', hf, ?_, ?_⟩
    · intro k p i h1 h2 _; exact hkeep k p i h1 h2
    · intro k h1 h2
      have h3 : key ≠ k := h2
      rw [hother k (Ne.symm h3), h1]
  | del key =>
    obtain ⟨hh, hf, -, -, -, hn⟩ := Del_frame c key
    refine ⟨Del key c, rfl, ?_, ?_, hf, ?_, ?_⟩
    · refine Settled_of_sub c _ hh ?_ hs
      intro k p hp
      rw [lookupPtr_Del] at hp
      by_cases hk : k = key
      · simp [hk] at hp
      · simpa [hk] using hp
    · exact fun h => ho (hn.1 h)
    · intro k p i h1 h2 h3
      have hk : k ≠ key := fun h => h3 h.symm
      rw [lookupPtr_Del, if_neg hk, hh]
      exact ⟨h1, h2⟩
    · intro k h1 _
      rw [lookupPtr_Del]
      by_cases hk : k = key
      · simp [hk]
      · simp [hk, h1]
  | eraseAll =>
    obtain ⟨hh, hf, -, -, -, hn⟩ := EraseAll_frame c
    refine ⟨EraseAll c, rfl, ?_, ?_, hf, ?_, ?_⟩
    · refine Settled_of_sub c _ hh ?_ hs
      intro k p hp
      rw [lookupPtr_EraseAll] at hp
      cases hp
    · exact fun h => ho (hn.1 h)
    · intro k p i _ _ h3; exact absurd h3 (by simp [Op.keeps])
    · intro k _ _; exact lookupPtr_EraseAll c k
  | sweep now =>
    obtain ⟨hh, hf, -, -, -, hn⟩ := routineCleanup_heap now c
    refine ⟨routineCleanup now c, rfl, ?_, ?_, hf, ?_, ?_⟩
    · refine Settled_of_sub c _ hh ?_ hs
      intro k p hp
      rw [lookupPtr_routineCleanup] at hp
      cases hl : lookupPtr c k with
      | none => rw [hl] at hp; simp [Option.filter] at hp
      | some q =>
        rw [hl] at hp
        simp only [Option.filter] at hp
        split at hp
        · exact hp
        · cases hp
    · exact fun h => ho (hn.1 h)
    · intro k p i h1 h2 h3
      have hx : expiredAt c.heap now p = false := by
        simp only [Op.keeps] at h3
        simp [expiredAt, h2, h3]
      rw [lookupPtr_routineCleanup, h1, hh]
      simp [Option.filter, hx, h2]
    · intro k h1 _
      rw [lookupPtr_routineCleanup, h1]; rfl

/-- A sequence of operations each of which keeps the entry of `key` returns
and leaves that entry, with the same pointer and the same item, in place. -/
theorem runOps_keeps (key : String) (p : Nat) (i : item V E) (ops : List Op) :
    ∀ (c : TMCache V E W), Settled c → lookupPtr c key = some p →
      c.heap[p]? = some i → (∀ o ∈ ops, Op.keeps key i.deadline o) →
      ∃ c', runOps ops c = .ok c' ∧ Settled c' ∧ c'.f = c.f
        ∧ lookupPtr c' key = some p ∧ c'.heap[p]? = some i := by
  induction ops with
  | nil => intro c hs hp hi _; exact ⟨c, rfl, hs, rfl, hp, hi⟩
  | cons o ops ih =>
    intro c hs hp hi hall
    have hk : Op.keeps key i.deadline o := hall o (List.mem_cons_self _ _)
    have hc : o ≠ .close := by
      rintro rfl; exact hk
    obtain ⟨c1, h1, hs1, -, hf1, hkeep, -⟩ :=
      apply_settled o c hs (lookupPtr_ne_none_open c key p hp) hc
    obtain ⟨hp1, hi1⟩ := hkeep key p i hp hi hk
    obtain ⟨c2, h2, hs2, hf2, hp2, hi2⟩ :=
      ih c1 hs1 hp1 hi1 (fun o' ho' => hall o' (List.mem_cons_of_mem _ ho'))
    exact ⟨c2, by simp [runOps, h1, h2], hs2, hf2.trans hf1, hp2, hi2⟩

/-- A sequence of operations without `Close` and without `Get` of `key`
returns and leaves `key` without entry when it had none. -/
theorem runOps_absent (key : String) (ops : List Op) :
    ∀ (c : TMCache V E W), Settled c → c.items ≠ none → lookupPtr c key = none →
      (∀ o ∈ ops, Op.noGetOf key o) →
      ∃ c', runOps ops c = .ok c' ∧ Settled c' ∧ c'.items ≠ none ∧ c'.f = c.f
        ∧ lookupPtr c' key = none := by
  induction ops with
  | nil => intro c hs ho hp _; exact ⟨c, rfl, hs, ho, rfl, hp⟩
  | cons o ops ih =>
    intro c hs ho hp hall
    have hk : Op.noGetOf key o := hall o (List.mem_cons_self _ _)
    have hc : o ≠ .close := by
      rintro rfl; exact hk
    obtain ⟨c1, h1, hs1, ho1, hf1, -, habs⟩ := apply_settled o c hs ho hc
    obtain ⟨c2, h2, hs2, ho2, hf2, hp2⟩ :=
      ih c1 hs1 ho1 (habs key hp hk) (fun o' ho' => hall o' (List.mem_cons_of_mem _ ho'))
    exact ⟨c2, by simp [runOps, h1, h2], hs2, ho2, hf2.trans hf1, hp2⟩

/-- The lemma `Get_miss` with the absence of the key stated through `lookupPtr`. -/
theorem Get_miss_ptr (c : TMCache V E W) (key : String) (ttl now : Int)
    (ho : c.items ≠ none) (hk : lookupPtr c key = none) :
    ∃ c', Get key ttl now c
        = .ok (((c.f key c.world).1.1, false, (c.f key c.world).1.2), c')
      ∧ lookupPtr c' key = some c.heap.length
      ∧ c'.heap[c.heap.length]? = some ⟨true, wrapInt64 (now + ttl),
          ⟨(c.f key c.world).1.1, (c.f key c.world).1.2⟩⟩
      ∧ c'.calls = c.calls ++ [key]
      ∧ c'.world = (c.f key c.world).2
      ∧ c'.f = c.f := by
  cases hm : c.items with
  | none => exact absurd hm ho
  | some m =>
    rw [lookupPtr_of_items c m hm] at hk
    obtain ⟨c', hg, hitems, hheap, hcalls, hworld, hf, -⟩ := Get_miss c m key ttl now hm hk
    refine ⟨c', hg, ?_, ?_, hcalls, hworld, hf⟩
    · rw [lookupPtr_of_items c' _ hitems, AList.lookup_insert]
    · rw [hheap]; simp

/-- A removing operation removes: after it the key has no entry, and the
outside world and the call log are as before. -/
theorem apply_removes (o : Op) (c : TMCache V E W) (key : String) (p : Nat)
    (i : item V E) (hp : lookupPtr c key = some p) (hi : c.heap[p]? = some i)
    (hr : Op.removes key i.deadline o) :
    ∃ c', o.apply c = .ok c' ∧ lookupPtr c' key = none ∧ c'.items ≠ none
      ∧ c'.f = c.f ∧ c'.world = c.world ∧ c'.calls = c.calls := by
  have ho : c.items ≠ none := lookupPtr_ne_none_open c key p hp
  cases o with
  | get k t n => exact absurd hr (by simp [Op.removes])
  | close => exact absurd hr (by simp [Op.removes])
  | del k =>
    have hk : k = key := hr
    subst hk
    obtain ⟨-, hf, hw, hc, -, hn⟩ := Del_frame c k
    exact ⟨Del k c, rfl, by simp [lookupPtr_Del], fun h => ho (hn.1 h), hf, hw, hc⟩
  | eraseAll =>
    obtain ⟨-, hf, hw, hc, -, hn⟩ := EraseAll_frame c
    exact ⟨EraseAll c, rfl, lookupPtr_EraseAll c key, fun h => ho (hn.1 h), hf, hw, hc⟩
  | sweep now =>
    obtain ⟨-, hf, hw, hc, -, hn⟩ := routineCleanup_heap now c
    have hd : i.deadline ≤ now := hr
    have hx : expiredAt c.heap now p = true := by simp [expiredAt, hi, hd]
    refine ⟨routineCleanup now c, rfl, ?_, fun h => ho (hn.1 h), hf, hw, hc⟩
    rw [lookupPtr_routineCleanup, hp]
    simp [Option.filter, hx]

theorem Settled_NewTMCache (fn : Func V E W) (w : W) : Settled (NewTMCache fn w) := by
  intro k p h
  simp [lookupPtr, NewTMCache] at h

theorem Settled_warmCache : Settled warmCache := by
  intro k q h
  have hq : q = 0 := by
    by_cases hk : k = "key"
    · subst hk
      have : lookupPtr warmCache "key" = some 0 := by decide
      rw [this] at h; cases h; rfl
    · have : lookupPtr warmCache k = none := by
        rw [lookupPtr_of_items warmCache _ rfl, AList.lookup_insert_ne hk]; rfl
      rw [this] at h; cases h
  subst hq
  exact ⟨_, rfl, rfl⟩

theorem Del_absent (c : TMCache V E W) (key : String) (hk : lookupPtr c key = none) :
    Del key c = c := by
  cases c with
  | mk done items f heap world calls =>
    cases items with
    | none => rfl
    | some m =>
      have hm : m.lookup key = none := by simpa [lookupPtr] using hk
      have hmem : key ∉ m.keys := fun h => AList.lookup_eq_none.1 hm (AList.mem_keys.2 h)
      have : m.erase key = m := AList.ext (List.kerase_of_not_mem_keys hmem)
      simp [Del, this]

/-! ### The sweeper -/

theorem wrapInt64_le (x : Int) (h : -(2 ^ 63) ≤ x) : wrapInt64 x ≤ x := by
  unfold wrapInt64
  omega

theorem sweepsAt_noGetOf (key : String) (ts : List Int) :
    ∀ o ∈ sweepsAt ts, Op.noGetOf key o := by
  intro o ho
  obtain ⟨t, -, rfl⟩ := List.mem_map.1 ho
  trivial

/-- Sweeps remove an entry as soon as one of them runs at or after its
deadline, and nothing puts it back. -/
theorem runOps_sweepsAt_removes (key : String) (p : Nat) (i : item V E)
    (ts : List Int) :
    ∀ (c : TMCache V E W), Settled c → lookupPtr c key = some p →
      c.heap[p]? = some i → (∃ t ∈ ts, i.deadline ≤ t) →
      ∃ c', runOps (sweepsAt ts) c = .ok c' ∧ c'.items ≠ none ∧ c'.f = c.f
        ∧ lookupPtr c' key = none := by
  induction ts with
  | nil => intro c _ _ _ h; obtain ⟨t, ht, -⟩ := h; cases ht
  | cons t0 ts ih =>
    intro c hs hp hi hex
    have ho : c.items ≠ none := lookupPtr_ne_none_open c key p hp
    obtain ⟨c1, h1, hs1, ho1, hf1, hkeep, -⟩ :=
      apply_settled (Op.sweep t0) c hs ho (by simp)
    by_cases hd : i.deadline ≤ t0
    · obtain ⟨c1', h1', hp1, -, -, -, -⟩ := apply_removes (Op.sweep t0) c key p i hp hi hd
      have hc : c1' = c1 := by
        rw [h1] at h1'; cases h1'; rfl
      subst hc
      obtain ⟨c2, h2, -, ho2, hf2, hp2⟩ :=
        runOps_absent key (sweepsAt ts) c1' hs1 ho1 hp1 (sweepsAt_noGetOf key ts)
      exact ⟨c2, by simp [sweepsAt, runOps, h1]; exact h2, ho2, hf2.trans hf1, hp2⟩
    · obtain ⟨hp1, hi1⟩ := hkeep key p i hp hi (not_le.1 hd)
      have hex' : ∃ t ∈ ts, i.deadline ≤ t := by
        obtain ⟨t, ht, hle⟩ := hex
        rcases List.mem_cons.1 ht with rfl | ht
        · exact absurd hle hd
        · exact ⟨t, ht, hle⟩
      obtain ⟨c2, h2, ho2, hf2, hp2⟩ := ih c1 hs1 hp1 hi1 hex'
      exact ⟨c2, by simp [sweepsAt, runOps, h1]; exact h2, ho2, hf2.trans hf1, hp2⟩

/-! ### Concurrent callers -/

theorem fire_caller_some (s s' : Sys V E W) (t : Nat) (now : Int)
    (h : s.fire (.caller t now) = some s') :
    ∃ cl cl' c', s.callers[t]? = some cl ∧ stepCaller now cl s.cache = some (cl', c')
      ∧ s' = ⟨c', s.callers.set t cl'⟩ := by
  unfold Sys.fire at h
  cases hc : s.callers[t]? with
  | none => simp [hc] at h
  | some cl =>
    cases hst : stepCaller now cl s.cache with
    | none => simp [hc, hst] at h
    | some r =>
      obtain ⟨cl', c'⟩ := r
      simp [hc, hst] at h
      exact ⟨cl, cl', c', rfl, hst, h.symm⟩

theorem stepCaller_stepsLeft (now : Int) (cl cl' : Caller V E) (c c' : TMCache V E W)
    (h : stepCaller now cl c = some (cl', c')) :
    cl'.pc.stepsLeft < cl.pc.stepsLeft ∧ cl'.key = cl.key ∧ cl'.ttl = cl.ttl := by
  unfold stepCaller at h
  cases hpc : cl.pc with
  | start =>
    simp only [hpc] at h
    cases hl : getLocked cl.key cl.ttl now c with
    | error e => simp [hl] at h
    | ok r =>
      obtain ⟨p, b, c1⟩ := r
      cases b <;> simp [hl] at h <;> obtain ⟨h1, -⟩ := h <;> subst h1 <;>
        simp [Pc.stepsLeft]
  | computing p =>
    simp only [hpc] at h
    cases h
    simp [Pc.stepsLeft]
  | closing p =>
    simp only [hpc] at h
    cases hr : getReturn p (getClose p c) with
    | error e => simp [hr] at h
    | ok r => simp [hr] at h; obtain ⟨h1, -⟩ := h; subst h1; simp [Pc.stepsLeft]
  | waiting p =>
    simp only [hpc] at h
    cases hr : getWait p c with
    | error e => simp [hr] at h
    | ok r => simp [hr] at h; obtain ⟨h1, -⟩ := h; subst h1; simp [Pc.stepsLeft]
  | returned r => simp [hpc] at h

theorem sum_map_set_lt {α : Type} (g : α → Nat) (b : α) :
    ∀ (l : List α) (t : Nat) (a : α), l[t]? = some a → g b < g a →
      ((l.set t b).map g).sum < (l.map g).sum := by
  intro l
  induction l with
  | nil => intro t a h; simp at h
  | cons x l ih =>
    intro t a h hlt
    cases t with
    | zero =>
      simp at h
      subst h
      simp; exact hlt
    | succ t =>
      simp at h
      have := ih t a h hlt
      simp only [List.set_cons_succ, List.map_cons, List.sum_cons]
      omega

theorem fire_caller_stepsLeft (s s' : Sys V E W) (t : Nat) (now : Int)
    (h : s.fire (.caller t now) = some s') :
    s'.stepsLeft < s.stepsLeft ∧ s'.callers.length = s.callers.length := by
  obtain ⟨cl, cl', c', hcl, hst, rfl⟩ := fire_caller_some s s' t now h
  refine ⟨?_, by simp⟩
  unfold Sys.stepsLeft
  exact sum_map_set_lt (fun cl => cl.pc.stepsLeft) cl' s.callers t cl hcl
    (stepCaller_stepsLeft now cl cl' s.cache c' hst).1

theorem run_append (evs1 evs2 : List Event) :
    ∀ (s s1 : Sys V E W), Sys.run evs1 s = some s1 →
      Sys.run (evs1 ++ evs2) s = Sys.run evs2 s1 := by
  induction evs1 with
  | nil => intro s s1 h; simp [Sys.run] at h; subst h; rfl
  | cons ev evs ih =>
    intro s s1 h
    simp only [Sys.run, List.cons_append] at h ⊢
    cases hf : s.fire ev with
    | none => simp [hf] at h
    | some s' =>
      simp only [hf] at h ⊢
      exact ih s' s1 h

theorem getElem?_updateItem_self (h : List (item V E)) (p : Nat) (i : item V E)
    (g : item V E → item V E) (hi : h[p]? = some i) :
    (updateItem h p g)[p]? = some (g i) := by
  have hp : p < h.length := (List.getElem?_eq_some.1 hi).1
  simp [updateItem, hi, List.getElem?_set_self hp]

/-- The first caller to take the lock creates the entry. -/
theorem stepCaller_start_absent (now : Int) (cl : Caller V E) (c : TMCache V E W)
    (m : AList (fun _ : String => Nat)) (hpc : cl.pc = .start)
    (hm : c.items = some m) (hk : m.lookup cl.key = none) :
    ∃ c', stepCaller now cl c = some ({ cl with pc := .computing c.heap.length }, c')
      ∧ lookupPtr c' cl.key = some c.heap.length
      ∧ c'.heap[c.heap.length]? = some ⟨false, wrapInt64 (now + cl.ttl), ⟨none, none⟩⟩
      ∧ c'.calls = c.calls ∧ c'.world = c.world ∧ c'.f = c.f ∧ c'.items ≠ none := by
  simp [stepCaller, hpc, getLocked, hm, hk, lookupPtr]

/-- A caller that takes the lock when the entry exists goes on to wait. -/
theorem stepCaller_start_present (now : Int) (cl : Caller V E) (c : TMCache V E W)
    (p : Nat) (hpc : cl.pc = .start) (hp : lookupPtr c cl.key = some p) :
    stepCaller now cl c = some ({ cl with pc := .waiting p }, c) := by
  unfold lookupPtr at hp
  cases hm : c.items with
  | none => simp [hm] at hp
  | some m =>
    simp only [hm] at hp
    simp [stepCaller, hpc, getLocked, hm, hp]

/-- Line 82: the call of the computation function and the store of its
result. -/
theorem stepCaller_computing (now : Int) (cl : Caller V E) (c : TMCache V E W)
    (p : Nat) (i : item V E) (hpc : cl.pc = .computing p) (hi : c.heap[p]? = some i) :
    ∃ c', stepCaller now cl c = some ({ cl with pc := .closing p }, c')
      ∧ c'.heap[p]?
          = some ⟨i.done, i.deadline, ⟨(c.f cl.key c.world).1.1, (c.f cl.key c.world).1.2⟩⟩
      ∧ c'.calls = c.calls ++ [cl.key] ∧ c'.world = (c.f cl.key c.world).2
      ∧ c'.f = c.f ∧ c'.items = c.items := by
  refine ⟨getCompute cl.key p c, by simp [stepCaller, hpc], ?_, rfl, rfl, rfl, rfl⟩
  simp only [getCompute]
  rw [getElem?_updateItem_self _ _ i _ hi]

/-- Line 84 and the return of the creator. -/
theorem stepCaller_closing (now : Int) (cl : Caller V E) (c : TMCache V E W)
    (p : Nat) (i : item V E) (hpc : cl.pc = .closing p) (hi : c.heap[p]? = some i) :
    ∃ c', stepCaller now cl c
        = some ({ cl with pc := .returned (i.res.value, false, i.res.err) }, c')
      ∧ c'.heap[p]? = some ⟨true, i.deadline, i.res⟩
      ∧ c'.calls = c.calls ∧ c'.world = c.world ∧ c'.f = c.f ∧ c'.items = c.items := by
  have h1 : (getClose p c).heap[p]? = some ⟨true, i.deadline, i.res⟩ := by
    simp only [getClose]
    rw [getElem?_updateItem_self _ _ i _ hi]
  refine ⟨getClose p c, ?_, h1, rfl, rfl, rfl, rfl⟩
  simp [stepCaller, hpc, getReturn, h1]

/-- Line 88: a waiting caller goes on exactly when the channel is closed, and
then returns what the item holds. -/
theorem stepCaller_waiting (now : Int) (cl : Caller V E) (c : TMCache V E W)
    (p : Nat) (i : item V E) (hpc : cl.pc = .waiting p) (hi : c.heap[p]? = some i) :
    stepCaller now cl c
      = if i.done then some ({ cl with pc := .returned (i.res.value, true, i.res.err) }, c)
        else none := by
  cases hd : i.done <;> simp [stepCaller, hpc, getWait, hi, hd]

theorem lookupPtr_congr (c c' : TMCache V E W) (h : c'.items = c.items) (k : String) :
    lookupPtr c' k = lookupPtr c k := by
  simp [lookupPtr, h]

/-- A step of a caller keeps the system in the states described by
`Coalesced`. -/
theorem Coalesced_fire (c : TMCache V E W) (m : AList (fun _ : String => Nat))
    (key : String) (hm : c.items = some m) (hk : m.lookup key = none)
    (s s' : Sys V E W) (t : Nat) (now : Int)
    (hinv : Coalesced c key s) (hf : s.fire (.caller t now) = some s') :
    Coalesced c key s' := by
  obtain ⟨cl, cl', c', hcl, hst, rfl⟩ := fire_caller_some s s' t now hf
  obtain ⟨hkeys, hfe, hopen, hphase⟩ := hinv
  have hkey : cl.key = key := hkeys cl (List.getElem?_mem hcl)
  have hkey' : cl'.key = key :=
    (stepCaller_stepsLeft now cl cl' s.cache c' hst).2.1.trans hkey
  have hlt : t < s.callers.length := (List.getElem?_eq_some.1 hcl).1
  have hkeys' : ∀ x ∈ s.callers.set t cl', x.key = key := by
    intro x hx
    rcases List.mem_or_eq_of_mem_set hx with h | h
    · exact hkeys x h
    · rw [h]; exact hkey'
  rcases hphase with ⟨hc, hall⟩ | ⟨hp, t0, cl0, d, hcl0, hothers, hcreator⟩
  · have hpc : cl.pc = .start := hall cl (List.getElem?_mem hcl)
    rw [hc] at hst
    obtain ⟨c1, hst1, hp1, hh1, hcalls1, hw1, hf1, ho1⟩ :=
      stepCaller_start_absent now cl c m hpc hm (by rw [hkey]; exact hk)
    rw [hst1] at hst
    cases hst
    rw [hkey] at hp1
    refine ⟨hkeys', hf1, ho1, Or.inr ⟨hp1, t, _, _, List.getElem?_set_self hlt, ?_,
      Or.inl ⟨rfl, hh1, hcalls1, hw1⟩⟩⟩
    intro t' x hx hne
    rw [List.getElem?_set_ne (Ne.symm hne)] at hx
    exact Or.inl (hall x (List.getElem?_mem hx))
  · by_cases ht : t = t0
    · subst ht
      have hcc : cl0 = cl := by
        rw [hcl] at hcl0; cases hcl0; rfl
      subst hcc
      have hothers' : ∀ (t' : Nat) (x : Caller V E),
          (s.callers.set t cl')[t']? = some x → t' ≠ t →
            x.pc = .start ∨ x.pc = .waiting c.heap.length
            ∨ x.pc = .returned ((c.f key c.world).1.1, true, (c.f key c.world).1.2) := by
        intro t' x hx hne
        rw [List.getElem?_set_ne (Ne.symm hne)] at hx
        exact hothers t' x hx hne
      rcases hcreator with ⟨hpc, hh, hcalls, hw⟩ | ⟨hpc, hh, hcalls⟩ | ⟨hpc, hh, hcalls⟩
      · obtain ⟨c1, hst1, hh1, hcalls1, -, hf1, hi1⟩ :=
          stepCaller_computing now cl0 s.cache _ _ hpc hh
        rw [hst1] at hst
        cases hst
        rw [hfe, hkey, hw] at hh1
        refine ⟨hkeys', hf1.trans hfe, by rw [hi1]; exact hopen,
          Or.inr ⟨by rw [lookupPtr_congr _ _ hi1]; exact hp, t, _, d,
            List.getElem?_set_self hlt, hothers',
            Or.inr (Or.inl ⟨rfl, hh1, by rw [hcalls1, hcalls, hkey]⟩)⟩⟩
      · obtain ⟨c1, hst1, hh1, hcalls1, -, hf1, hi1⟩ :=
          stepCaller_closing now cl0 s.cache _ _ hpc hh
        rw [hst1] at hst
        cases hst
        refine ⟨hkeys', hf1.trans hfe, by rw [hi1]; exact hopen,
          Or.inr ⟨by rw [lookupPtr_congr _ _ hi1]; exact hp, t, _, d,
            List.getElem?_set_self hlt, hothers',
            Or.inr (Or.inr ⟨rfl, hh1, by rw [hcalls1, hcalls]⟩)⟩⟩
      · simp [stepCaller, hpc] at hst
    · have hcl0' : (s.callers.set t cl')[t0]? = some cl0 := by
        rw [List.getElem?_set_ne ht]; exact hcl0
      have hothers' : ∀ (pc' : Pc V E), cl'.pc = pc' →
          (pc' = .start ∨ pc' = .waiting c.heap.length
            ∨ pc' = .returned ((c.f key c.world).1.1, true, (c.f key c.world).1.2)) →
          ∀ (t' : Nat) (x : Caller V E),
          (s.callers.set t cl')[t']? = some x → t' ≠ t0 →
            x.pc = .start ∨ x.pc = .waiting c.heap.length
            ∨ x.pc = .returned ((c.f key c.world).1.1, true, (c.f key c.world).1.2) := by
        intro pc' hpc' hor t' x hx hne
        by_cases htt : t' = t
        · subst htt
          rw [List.getElem?_set_self hlt] at hx
          cases hx
          rw [hpc']; exact hor
        · rw [List.getElem?_set_ne (Ne.symm htt)] at hx
          exact hothers t' x hx hne
      rcases hothers t cl hcl ht with hpc | hpc | hpc
      · rw [stepCaller_start_present now cl s.cache c.heap.length hpc
          (by rw [hkey]; exact hp)] at hst
        cases hst
        exact ⟨hkeys', hfe, hopen, Or.inr ⟨hp, t0, cl0, d, hcl0',
          hothers' _ rfl (Or.inr (Or.inl rfl)), hcreator⟩⟩
      · rcases hcreator with ⟨hpc0, hh, hcalls, hw⟩ | ⟨hpc0, hh, hcalls⟩ | ⟨hpc0, hh, hcalls⟩
        · rw [stepCaller_waiting now cl s.cache _ _ hpc hh] at hst
          simp at hst
        · rw [stepCaller_waiting now cl s.cache _ _ hpc hh] at hst
          simp at hst
        · rw [stepCaller_waiting now cl s.cache _ _ hpc hh] at hst
          simp only [if_true] at hst
          cases hst
          exact ⟨hkeys', hfe, hopen, Or.inr ⟨hp, t0, cl0, d, hcl0',
            hothers' _ rfl (Or.inr (Or.inr rfl)), Or.inr (Or.inr ⟨hpc0, hh, hcalls⟩)⟩⟩
      · simp [stepCaller, hpc] at hst

theorem Coalesced_sameKey (c : TMCache V E W) (m : AList (fun _ : String => Nat))
    (key : String) (ttls : List Int) (hm : c.items = some m) :
    Coalesced c key (Sys.sameKey c key ttls) := by
  refine ⟨?_, rfl, by simp [Sys.sameKey, hm], Or.inl ⟨rfl, ?_⟩⟩
  · intro cl hcl
    obtain ⟨ttl, -, rfl⟩ := List.mem_map.1 hcl
    rfl
  · intro cl hcl
    obtain ⟨ttl, -, rfl⟩ := List.mem_map.1 hcl
    rfl

theorem Coalesced_run (c : TMCache V E W) (m : AList (fun _ : String => Nat))
    (key : String) (hm : c.items = some m) (hk : m.lookup key = none)
    (sched : List (Nat × Int)) :
    ∀ (s s' : Sys V E W), Coalesced c key s → Sys.run (callerSteps sched) s = some s' →
      Coalesced c key s' ∧ s'.callers.length = s.callers.length := by
  induction sched with
  | nil =>
    intro s s' hinv h
    simp [callerSteps, Sys.run] at h
    subst h
    exact ⟨hinv, rfl⟩
  | cons x sched ih =>
    intro s s' hinv h
    simp only [callerSteps, List.map_cons, Sys.run] at h
    cases hf : s.fire (Event.caller x.1 x.2) with
    | none => simp [hf] at h
    | some s1 =>
      simp only [hf] at h
      obtain ⟨h1, h2⟩ := ih s1 s' (Coalesced_fire c m key hm hk s s1 x.1 x.2 hinv hf) h
      exact ⟨h1, h2.trans (fire_caller_stepsLeft s s1 x.1 x.2 hf).2⟩

/-- No deadlock: while a call has not returned, some caller can take a step. -/
theorem Coalesced_progress (c : TMCache V E W) (m : AList (fun _ : String => Nat))
    (key : String) (hm : c.items = some m) (hk : m.lookup key = none)
    (s : Sys V E W) (hinv : Coalesced c key s) (hfin : s.finished = false) :
    ∃ t s', s.fire (.caller t 0) = some s' := by
  obtain ⟨hkeys, hfe, hopen, hphase⟩ := hinv
  have hex : ∃ (t : Nat) (cl : Caller V E),
      s.callers[t]? = some cl ∧ cl.pc.isReturned = false := by
    unfold Sys.finished at hfin
    rw [List.all_eq_false] at hfin
    obtain ⟨cl, hcl, hr⟩ := hfin
    obtain ⟨t, ht⟩ := List.mem_iff_getElem?.1 hcl
    exact ⟨t, cl, ht, by simpa using hr⟩
  obtain ⟨t, cl, hcl, hnr⟩ := hex
  have hkey : cl.key = key := hkeys cl (List.getElem?_mem hcl)
  have fire_of : ∀ (t : Nat) (cl : Caller V E) (r : Caller V E × TMCache V E W),
      s.callers[t]? = some cl → stepCaller 0 cl s.cache = some r →
      ∃ t s', s.fire (.caller t 0) = some s' := by
    intro t cl r h1 h2
    exact ⟨t, ⟨r.2, s.callers.set t r.1⟩, by simp [Sys.fire, h1, h2]⟩
  rcases hphase with ⟨hc, hall⟩ | ⟨hp, t0, cl0, d, hcl0, hothers, hcreator⟩
  · have hpc : cl.pc = .start := hall cl (List.getElem?_mem hcl)
    obtain ⟨c1, hst1, -⟩ :=
      stepCaller_start_absent 0 cl c m hpc hm (by rw [hkey]; exact hk)
    rw [← hc] at hst1
    exact fire_of t cl _ hcl hst1
  · rcases hcreator with ⟨hpc0, hh, -, -⟩ | ⟨hpc0, hh, -⟩ | ⟨hpc0, hh, -⟩
    · obtain ⟨c1, hst1, -⟩ := stepCaller_computing 0 cl0 s.cache _ _ hpc0 hh
      exact fire_of t0 cl0 _ hcl0 hst1
    · obtain ⟨c1, hst1, -⟩ := stepCaller_closing 0 cl0 s.cache _ _ hpc0 hh
      exact fire_of t0 cl0 _ hcl0 hst1
    · have ht : t ≠ t0 := by
        rintro rfl
        rw [hcl] at hcl0; cases hcl0
        rw [hpc0] at hnr
        simp [Pc.isReturned] at hnr
      rcases hothers t cl hcl ht with hpc | hpc | hpc
      · exact fire_of t cl _ hcl
          (stepCaller_start_present 0 cl s.cache c.heap.length hpc (by rw [hkey]; exact hp))
      · have := stepCaller_waiting 0 cl s.cache _ _ hpc hh
        simp only [if_true] at this
        exact fire_of t cl _ hcl this
      · rw [hpc] at hnr
        simp [Pc.isReturned] at hnr

/-- Every interleaving can be continued until every call has returned. -/
theorem Coalesced_complete (c : TMCache V E W) (m : AList (fun _ : String => Nat))
    (key : String) (hm : c.items = some m) (hk : m.lookup key = none) :
    ∀ (n : Nat) (s : Sys V E W), s.stepsLeft ≤ n → Coalesced c key s →
      ∃ ext s', Sys.run (callerSteps ext) s = some s' ∧ s'.finished = true := by
  intro n
  induction n with
  | zero =>
    intro s hn hinv
    cases hfin : s.finished with
    | true => exact ⟨[], s, rfl, hfin⟩
    | false =>
      obtain ⟨t, s1, hf⟩ := Coalesced_progress c m key hm hk s hinv hfin
      have := (fire_caller_stepsLeft s s1 t 0 hf).1
      omega
  | succ n ih =>
    intro s hn hinv
    cases hfin : s.finished with
    | true => exact ⟨[], s, rfl, hfin⟩
    | false =>
      obtain ⟨t, s1, hf⟩ := Coalesced_progress c m key hm hk s hinv hfin
      have hlt := (fire_caller_stepsLeft s s1 t 0 hf).1
      obtain ⟨ext, s2, hrun, hfin2⟩ :=
        ih s1 (by omega) (Coalesced_fire c m key hm hk s s1 t 0 hinv hf)
      refine ⟨(t, 0) :: ext, s2, ?_, hfin2⟩
      simp only [callerSteps, List.map_cons, Sys.run, hf]
      exact hrun

/-- The computation function has been invoked at most once. -/
theorem Coalesced_calls (c : TMCache V E W) (key : String) (s : Sys V E W)
    (hinv : Coalesced c key s) :
    s.cache.calls = c.calls ∨ s.cache.calls = c.calls ++ [key] := by
  obtain ⟨-, -, -, hphase⟩ := hinv
  rcases hphase with ⟨hc, -⟩ | ⟨-, t0, cl0, d, -, -, hcreator⟩
  · left; rw [hc]
  · rcases hcreator with ⟨-, -, h, -⟩ | ⟨-, -, h⟩ | ⟨-, -, h⟩
    · left; exact h
    · right; exact h
    · right; exact h

/-- When every call has returned: one invocation, one caller with
`chit = false`, every other with `chit = true`, all with the same value and
error. -/
theorem Coalesced_finished (c : TMCache V E W) (key : String) (s : Sys V E W)
    (hinv : Coalesced c key s) (hn : 1 ≤ s.callers.length) (hfin : s.finished = true) :
    s.cache.calls = c.calls ++ [key]
    ∧ ∃ t0, t0 < s.callers.length ∧ ∀ t, t < s.callers.length →
        (s.callers[t]?).map (fun cl => cl.pc)
          = some (.returned ((c.f key c.world).1.1, decide (t ≠ t0),
              (c.f key c.world).1.2)) := by
  obtain ⟨-, -, -, hphase⟩ := hinv
  unfold Sys.finished at hfin
  rw [List.all_eq_true] at hfin
  rcases hphase with ⟨-, hall⟩ | ⟨-, t0, cl0, d, hcl0, hothers, hcreator⟩
  · have h0 : 0 < s.callers.length := hn
    have hmem : s.callers[0] ∈ s.callers := List.getElem_mem _
    have h1 := hall _ hmem
    have h2 := hfin _ hmem
    rw [h1] at h2
    simp [Pc.isReturned] at h2
  · have hr0 := hfin cl0 (List.getElem?_mem hcl0)
    have hpc0 : cl0.pc = .returned ((c.f key c.world).1.1, false, (c.f key c.world).1.2)
        ∧ s.cache.calls = c.calls ++ [key] := by
      rcases hcreator with ⟨h, -, -, -⟩ | ⟨h, -, -⟩ | ⟨h, -, h3⟩
      · rw [h] at hr0; simp [Pc.isReturned] at hr0
      · rw [h] at hr0; simp [Pc.isReturned] at hr0
      · exact ⟨h, h3⟩
    refine ⟨hpc0.2, t0, (List.getElem?_eq_some.1 hcl0).1, ?_⟩
    intro t ht
    by_cases htt : t = t0
    · subst htt
      rw [hcl0]
      simp [hpc0.1]
    · have hcl : s.callers[t]? = some s.callers[t] := List.getElem?_eq_getElem ht
      have hr := hfin _ (List.getElem?_mem hcl)
      rw [hcl]
      rcases hothers t _ hcl htt with h | h | h
      · rw [h] at hr; simp [Pc.isReturned] at hr
      · rw [h] at hr; simp [Pc.isReturned] at hr
      · simp [h, htt]

/-! ### Deadlines -/

theorem wrapInt64_eq (x : Int) (h : isInt64 x) : wrapInt64 x = x := by
  unfold isInt64 at h
  unfold wrapInt64
  omega

/-- Sweeps before the deadline of an entry leave it in place. -/
theorem runOps_sweepsAt_keeps (key : String) (p : Nat) (i : item V E) (ts : List Int) :
    ∀ (c : TMCache V E W), lookupPtr c key = some p → c.heap[p]? = some i →
      (∀ t ∈ ts, t < i.deadline) →
      ∃ c', runOps (sweepsAt ts) c = .ok c' ∧ lookupPtr c' key = some p
        ∧ c'.heap[p]? = some i := by
  induction ts with
  | nil => intro c hp hi _; exact ⟨c, rfl, hp, hi⟩
  | cons t ts ih =>
    intro c hp hi hall
    have ht : t < i.deadline := hall t (List.mem_cons_self _ _)
    have hx : expiredAt c.heap t p = false := by
      simp [expiredAt, hi, ht]
    have hp1 : lookupPtr (routineCleanup t c) key = some p := by
      rw [lookupPtr_routineCleanup, hp]
      simp [Option.filter, hx]
    have hi1 : (routineCleanup t c).heap[p]? = some i := by
      rw [(routineCleanup_heap t c).1]; exact hi
    obtain ⟨c', hrun, hp', hi'⟩ :=
      ih (routineCleanup t c) hp1 hi1 (fun t' ht' => hall t' (List.mem_cons_of_mem _ ht'))
    refine ⟨c', ?_, hp', hi'⟩
    simp only [sweepsAt, List.map_cons, runOps, Op.apply]
    exact hrun

/-! ### Steps of callers in general -/

theorem updateItem_length (h : List (item V E)) (q : Nat) (g : item V E → item V E) :
    (updateItem h q g).length = h.length := by
  unfold updateItem
  cases h[q]? <;> simp

theorem getElem?_updateItem_deadline (h : List (item V E)) (q : Nat)
    (g : item V E → item V E) (hg : ∀ j, (g j).deadline = j.deadline)
    (p : Nat) (i : item V E) (hi : h[p]? = some i) :
    ∃ i', (updateItem h q g)[p]? = some i' ∧ i'.deadline = i.deadline := by
  unfold updateItem
  cases hq : h[q]? with
  | none => exact ⟨i, hi, rfl⟩
  | some j =>
    by_cases hqp : q = p
    · subst hqp
      rw [hi] at hq
      cases hq
      have hlt : q < h.length := (List.getElem?_eq_some.1 hi).1
      exact ⟨g i, by simp [List.getElem?_set_self hlt], hg i⟩
    · exact ⟨i, by simp [List.getElem?_set_ne hqp, hi], rfl⟩

/-- What one step of a caller does to the cache: the heap does not shrink, a
caller arrives at line 82 only with a freshly allocated item that it has just
put into the map under its key, no entry of the map is removed or redirected,
and no deadline is changed. -/
theorem stepCaller_facts (now : Int) (cl cl' : Caller V E) (c c' : TMCache V E W)
    (h : stepCaller now cl c = some (cl', c')) :
    c.heap.length ≤ c'.heap.length
    ∧ (∀ p, cl'.pc = .computing p →
        p = c.heap.length ∧ c.heap.length < c'.heap.length
        ∧ lookupPtr c' cl'.key = some p)
    ∧ (∀ k p, lookupPtr c k = some p → lookupPtr c' k = some p)
    ∧ (∀ (p : Nat) (i : item V E), c.heap[p]? = some i →
        ∃ i' : item V E, c'.heap[p]? = some i' ∧ i'.deadline = i.deadline) := by
  unfold stepCaller at h
  cases hpc : cl.pc with
  | start =>
    simp only [hpc] at h
    cases hm : c.items with
    | none => simp [getLocked, hm] at h
    | some m =>
      cases hl : m.lookup cl.key with
      | none =>
        simp [getLocked, hm, hl] at h
        obtain ⟨h1, h2⟩ := h
        subst h1 h2
        refine ⟨by simp, ?_, ?_, ?_⟩
        · intro p hp
          simp at hp
          subst hp
          refine ⟨rfl, by simp, ?_⟩
          simp [lookupPtr]
        · intro k p hk
          rw [lookupPtr_of_items c m hm] at hk
          have hne : k ≠ cl.key := by
            rintro rfl; rw [hl] at hk; cases hk
          simp [lookupPtr, AList.lookup_insert_ne hne, hk]
        · intro p i hi
          exact ⟨i, getElem?_append_of_some _ _ _ _ hi, rfl⟩
      | some q =>
        simp [getLocked, hm, hl] at h
        obtain ⟨h1, h2⟩ := h
        subst h1 h2
        refine ⟨le_refl _, ?_, fun k p hk => hk, fun p i hi => ⟨i, hi, rfl⟩⟩
        intro p hp
        simp at hp
  | computing q =>
    simp only [hpc] at h
    cases h
    refine ⟨by simp [getCompute, updateItem_length], ?_, ?_, ?_⟩
    · intro p hp
      simp at hp
    · intro k p hk
      exact hk
    · intro p i hi
      simp only [getCompute]
      exact getElem?_updateItem_deadline c.heap q _ (by intro j; rfl) p i hi
  | closing q =>
    simp only [hpc] at h
    cases hr : getReturn q (getClose q c) with
    | error e => simp [hr] at h
    | ok r =>
      simp [hr] at h
      obtain ⟨h1, h2⟩ := h
      subst h1 h2
      refine ⟨by simp [getClose, updateItem_length], ?_, ?_, ?_⟩
      · intro p hp
        simp at hp
      · intro k p hk
        exact hk
      · intro p i hi
        simp only [getClose]
        exact getElem?_updateItem_deadline c.heap q _ (by intro j; rfl) p i hi
  | waiting q =>
    simp only [hpc] at h
    cases hr : getWait q c with
    | error e => simp [hr] at h
    | ok r =>
      simp [hr] at h
      obtain ⟨h1, h2⟩ := h
      subst h1 h2
      refine ⟨le_refl _, ?_, fun k p hk => hk, fun p i hi => ⟨i, hi, rfl⟩⟩
      intro p hp
      simp at hp
  | returned r => simp [hpc] at h

/-- What one event does to an entry of the map and to the items: the entry
keeps its pointer or is removed, and no deadline is changed. -/
theorem fire_entry (s s' : Sys V E W) (ev : Event) (hf : s.fire ev = some s') :
    (∀ key p, lookupPtr s.cache key = some p →
        lookupPtr s'.cache key = some p ∨ lookupPtr s'.cache key = none)
    ∧ (∀ (p : Nat) (i : item V E), s.cache.heap[p]? = some i →
        ∃ i' : item V E, s'.cache.heap[p]? = some i' ∧ i'.deadline = i.deadline) := by
  cases ev with
  | caller t now =>
    obtain ⟨cl, cl', c', -, hst, rfl⟩ := fire_caller_some s s' t now hf
    obtain ⟨-, -, hl, hh⟩ := stepCaller_facts now cl cl' s.cache c' hst
    exact ⟨fun key p hk => Or.inl (hl key p hk), hh⟩
  | del k =>
    simp only [Sys.fire] at hf
    cases hf
    refine ⟨?_, ?_⟩
    · intro key p hk
      simp only [lookupPtr_Del]
      by_cases hkk : key = k
      · right; simp [hkk]
      · left; simp [hkk, hk]
    · intro p i hi
      exact ⟨i, by simp only [(Del_frame s.cache k).1]; exact hi, rfl⟩
  | eraseAll =>
    simp only [Sys.fire] at hf
    cases hf
    refine ⟨fun key p _ => Or.inr (lookupPtr_EraseAll s.cache key), ?_⟩
    intro p i hi
    exact ⟨i, by simp only [(EraseAll_frame s.cache).1]; exact hi, rfl⟩
  | sweep now =>
    simp only [Sys.fire] at hf
    cases hf
    refine ⟨?_, ?_⟩
    · intro key p hk
      simp only [lookupPtr_routineCleanup, hk, Option.filter]
      split
      · left; rfl
      · right; rfl
    · intro p i hi
      exact ⟨i, by simp only [(routineCleanup_heap now s.cache).1]; exact hi, rfl⟩

theorem getLocked_present (c : TMCache V E W) (key : String) (ttl now : Int) (p : Nat)
    (hk : lookupPtr c key = some p) : getLocked key ttl now c = .ok (p, true, c) := by
  unfold lookupPtr at hk
  cases hm : c.items with
  | none => simp [hm] at hk
  | some m =>
    simp only [hm] at hk
    simp [getLocked, hm, hk]

/-! ### Computations in flight -/

theorem noncaller_fire (s s' : Sys V E W) (ev : Event) (hev : ev.isCaller = false)
    (hf : s.fire ev = some s') :
    s'.callers = s.callers ∧ s'.cache.heap = s.cache.heap := by
  cases ev with
  | caller t now => simp [Event.isCaller] at hev
  | del k =>
    simp only [Sys.fire] at hf
    cases hf
    exact ⟨rfl, (Del_frame s.cache k).1⟩
  | eraseAll =>
    simp only [Sys.fire] at hf
    cases hf
    exact ⟨rfl, (EraseAll_frame s.cache).1⟩
  | sweep now =>
    simp only [Sys.fire] at hf
    cases hf
    exact ⟨rfl, (routineCleanup_heap now s.cache).1⟩

/-- Every event keeps the items of the callers at line 82 distinct. -/
theorem distinctInFlight_fire (s s' : Sys V E W) (ev : Event)
    (hinv : s.distinctInFlight) (hf : s.fire ev = some s') : s'.distinctInFlight := by
  obtain ⟨h1, h3⟩ := hinv
  cases hev : ev.isCaller with
  | false =>
    obtain ⟨hc, hh⟩ := noncaller_fire s s' ev hev hf
    refine ⟨?_, ?_⟩
    · intro t cl p hcl hpc
      rw [hc] at hcl
      rw [hh]
      exact h1 t cl p hcl hpc
    · intro t t' cl cl' p p' hne hcl hcl' hpc hpc'
      rw [hc] at hcl hcl'
      exact h3 t t' cl cl' p p' hne hcl hcl' hpc hpc'
  | true =>
    cases ev with
    | del k => simp [Event.isCaller] at hev
    | eraseAll => simp [Event.isCaller] at hev
    | sweep now => simp [Event.isCaller] at hev
    | caller t now =>
      obtain ⟨cl0, cl0', c', hcl0, hst, rfl⟩ := fire_caller_some s s' t now hf
      obtain ⟨hlen, hfresh, -, -⟩ := stepCaller_facts now cl0 cl0' s.cache c' hst
      have hlt : t < s.callers.length := (List.getElem?_eq_some.1 hcl0).1
      have key : ∀ (t1 : Nat) (x : Caller V E) (q : Nat),
          (s.callers.set t cl0')[t1]? = some x → x.pc = .computing q →
          (t1 = t ∧ q = s.cache.heap.length ∧ s.cache.heap.length < c'.heap.length)
          ∨ (t1 ≠ t ∧ s.callers[t1]? = some x ∧ q < s.cache.heap.length) := by
        intro t1 x q hx hpc
        by_cases ht : t1 = t
        · subst ht
          rw [List.getElem?_set_self hlt] at hx
          cases hx
          obtain ⟨ha, hb, -⟩ := hfresh q hpc
          exact Or.inl ⟨rfl, ha, hb⟩
        · rw [List.getElem?_set_ne (Ne.symm ht)] at hx
          exact Or.inr ⟨ht, hx, h1 t1 x q hx hpc⟩
      refine ⟨?_, ?_⟩
      · intro t1 x q hx hpc
        rcases key t1 x q hx hpc with ⟨-, ha, hb⟩ | ⟨-, -, hb⟩
        · show q < c'.heap.length
          omega
        · show q < c'.heap.length
          omega
      · intro t1 t2 x1 x2 q1 q2 hne hx1 hx2 hpc1 hpc2
        rcases key t1 x1 q1 hx1 hpc1 with ⟨ht1, ha1, -⟩ | ⟨ht1, ho1, hb1⟩
        · rcases key t2 x2 q2 hx2 hpc2 with ⟨ht2, -, -⟩ | ⟨-, -, hb2⟩
          · exact absurd (ht1.trans ht2.symm) hne
          · omega
        · rcases key t2 x2 q2 hx2 hpc2 with ⟨-, ha2, -⟩ | ⟨-, ho2, -⟩
          · omega
          · exact h3 t1 t2 x1 x2 q1 q2 hne ho1 ho2 hpc1 hpc2

theorem distinctInFlight_initial (fn : Func V E W) (w : W) (gets : List (String × Int)) :
    (Sys.initial fn w gets).distinctInFlight ∧ (Sys.initial fn w gets).inFlightInMap := by
  have hstart : ∀ (t : Nat) (cl : Caller V E),
      (Sys.initial fn w gets).callers[t]? = some cl → cl.pc = .start := by
    intro t cl hcl
    obtain ⟨g, -, rfl⟩ := List.mem_map.1 (List.getElem?_mem hcl)
    rfl
  refine ⟨⟨?_, ?_⟩, ?_⟩
  · intro t cl p hcl hpc
    rw [hstart t cl hcl] at hpc
    cases hpc
  · intro t t' cl cl' p p' _ hcl _ hpc _
    rw [hstart t cl hcl] at hpc
    cases hpc
  · intro t cl p hcl hpc
    rw [hstart t cl hcl] at hpc
    cases hpc

theorem distinctInFlight_run (evs : List Event) :
    ∀ (s s' : Sys V E W), s.distinctInFlight → Sys.run evs s = some s' →
      s'.distinctInFlight := by
  induction evs with
  | nil =>
    intro s s' hinv h
    simp [Sys.run] at h
    subst h
    exact hinv
  | cons ev evs ih =>
    intro s s' hinv h
    simp only [Sys.run] at h
    cases hf : s.fire ev with
    | none => simp [hf] at h
    | some s1 =>
      simp only [hf] at h
      exact ih s1 s' (distinctInFlight_fire s s1 ev hinv hf) h

/-- A step of a caller keeps the items of the callers at line 82 in the map. -/
theorem inFlightInMap_fire (s s' : Sys V E W) (t : Nat) (now : Int)
    (hinv : s.inFlightInMap) (hf : s.fire (.caller t now) = some s') :
    s'.inFlightInMap := by
  obtain ⟨cl0, cl0', c', hcl0, hst, rfl⟩ := fire_caller_some s s' t now hf
  obtain ⟨-, hfresh, hl, -⟩ := stepCaller_facts now cl0 cl0' s.cache c' hst
  have hlt : t < s.callers.length := (List.getElem?_eq_some.1 hcl0).1
  intro t1 x q hx hpc
  by_cases ht : t1 = t
  · subst ht
    rw [List.getElem?_set_self hlt] at hx
    cases hx
    exact (hfresh q hpc).2.2
  · rw [List.getElem?_set_ne (Ne.symm ht)] at hx
    exact hl x.key q (hinv t1 x q hx hpc)

/-- A step of a caller spares every entry: it removes none. -/
theorem spares_caller (s : Sys V E W) (t : Nat) (now : Int) :
    s.spares (.caller t now) = true := by
  unfold Sys.spares
  cases hf : s.fire (.caller t now) with
  | none => rfl
  | some s' =>
    obtain ⟨cl0, cl0', c', -, hst, rfl⟩ := fire_caller_some s s' t now hf
    obtain ⟨-, -, hl, -⟩ := stepCaller_facts now cl0 cl0' s.cache c' hst
    simp only [List.all_eq_true]
    intro cl _
    cases hpc : cl.pc with
    | computing p =>
      simp only [Bool.or_eq_true, bne_iff_ne, ne_eq, beq_iff_eq]
      by_cases hk : lookupPtr s.cache cl.key = some p
      · right; exact hl cl.key p hk
      · left; exact hk
    | start => rfl
    | closing p => rfl
    | waiting p => rfl
    | returned r => rfl

/-- An event that spares the entries in flight keeps the items of the callers
at line 82 in the map. -/
theorem inFlightInMap_fire_sparing (s s' : Sys V E W) (ev : Event)
    (hinv : s.inFlightInMap) (hsp : s.spares ev = true) (hf : s.fire ev = some s') :
    s'.inFlightInMap := by
  cases hev : ev.isCaller with
  | true =>
    cases ev with
    | del k => simp [Event.isCaller] at hev
    | eraseAll => simp [Event.isCaller] at hev
    | sweep now => simp [Event.isCaller] at hev
    | caller t now => exact inFlightInMap_fire s s' t now hinv hf
  | false =>
    obtain ⟨hc, -⟩ := noncaller_fire s s' ev hev hf
    intro t cl p hcl hpc
    rw [hc] at hcl
    have hk := hinv t cl p hcl hpc
    unfold Sys.spares at hsp
    simp only [hf, List.all_eq_true] at hsp
    have h1 := hsp cl (List.getElem?_mem hcl)
    simp only [hpc, Bool.or_eq_true, bne_iff_ne, ne_eq, beq_iff_eq] at h1
    rcases h1 with h1 | h1
    · exact absurd hk h1
    · exact h1

theorem inFlightInMap_run (evs : List Event) :
    ∀ (s s' : Sys V E W), Sys.sparingRun evs s = true → s.inFlightInMap →
      Sys.run evs s = some s' → s'.inFlightInMap := by
  induction evs with
  | nil =>
    intro s s' _ hinv h
    simp [Sys.run] at h
    subst h
    exact hinv
  | cons ev evs ih =>
    intro s s' hsp hinv h
    simp only [Sys.run] at h
    cases hf : s.fire ev with
    | none => simp [hf] at h
    | some s1 =>
      simp only [hf] at h
      simp only [Sys.sparingRun, hf, Bool.and_eq_true] at hsp
      exact ih s1 s' hsp.2 (inFlightInMap_fire_sparing s s1 ev hinv hsp.1 hf) h

/-- A run of steps of callers only spares every entry. -/
theorem sparingRun_of_callers (evs : List Event) :
    ∀ (s : Sys V E W), (∀ ev ∈ evs, ev.isCaller = true) → Sys.sparingRun evs s = true := by
  induction evs with
  | nil => intro s _; rfl
  | cons ev evs ih =>
    intro s hall
    have hev := hall ev (List.mem_cons_self _ _)
    have hrest : ∀ e ∈ evs, e.isCaller = true :=
      fun e he => hall e (List.mem_cons_of_mem _ he)
    cases ev with
    | del k => simp [Event.isCaller] at hev
    | eraseAll => simp [Event.isCaller] at hev
    | sweep now => simp [Event.isCaller] at hev
    | caller t now =>
      simp only [Sys.sparingRun, spares_caller, Bool.true_and]
      cases hf : s.fire (.caller t now) with
      | none => rfl
      | some s1 => exact ih s1 hrest

/-- C1, the claim fails: after `Close` on the engine of the tests the map is
nil, so the key has no entry, and `Get` neither invokes the computation
function nor returns: the assignment to the nil map panics. -/
theorem Get_absent_on_closed_panics :
    ∃ c', Close testCache = .ok c' ∧ lookupPtr c' "key" = none
      ∧ Get "key" 10000000000 0 c' = .error Fault.nilMapAssign :=
  ⟨_, rfl, rfl, rfl⟩

/-- C1 as amended: on an engine that has not been closed (its map is not nil)
and whose map has no entry for `key`, `Get key ttl` returns `(v, false, e)`
where `(v, e)` is what the computation function returns for `key` in the
current world; the function is invoked exactly once, with `key`: the call log
grows by `[key]` and the world advances by that one call. -/
theorem Get_absent_computes_once (c : TMCache V E W) (m : AList (fun _ : String => Nat))
    (key : String) (ttl now : Int)
    (hm : c.items = some m) (hk : m.lookup key = none) :
    ∃ c', Get key ttl now c
        = .ok (((c.f key c.world).1.1, false, (c.f key c.world).1.2), c')
      ∧ c'.calls = c.calls ++ [key]
      ∧ c'.world = (c.f key c.world).2 := by
  simp [Get, getLocked, hm, hk, getReturn, getClose, getCompute, updateItem]

/-- Witness of the amended C1 at the cache of `tmc_test.go`, key `"key"`. -/
theorem Get_absent_computes_once_witness :
    testCache.items = some ∅
    ∧ (∅ : AList (fun _ : String => Nat)).lookup "key" = none
    ∧ ∃ c', Get "key" 10000000000 0 testCache
        = .ok (((testCache.f "key" testCache.world).1.1, false,
                (testCache.f "key" testCache.world).1.2), c')
      ∧ c'.calls = testCache.calls ++ ["key"]
      ∧ c'.world = (testCache.f "key" testCache.world).2 :=
  ⟨rfl, rfl, Get_absent_computes_once testCache ∅ "key" 10000000000 0 rfl rfl⟩

/-- C2: on a settled open cache without entry for `key`, a `Get key ttl1`
returns `(v, false, e)`; after any sequence of further `Get`s (of any keys,
no `Del`, `EraseAll`, `Close` or sweep), a `Get key ttl2` returns the same
`v` and `e` with the hit flag true and leaves the whole state, call log
included, as it was: the computation function is not invoked again. -/
theorem Get_then_Get_hits (c : TMCache V E W) (key : String)
    (ttl1 now1 ttl2 now2 : Int) (between : List Op)
    (hs : Settled c) (ho : c.items ≠ none) (hk : lookupPtr c key = none)
    (hb : ∀ o ∈ between, Op.isGet o = true) :
    ∃ c1 c2,
      Get key ttl1 now1 c
        = .ok (((c.f key c.world).1.1, false, (c.f key c.world).1.2), c1)
      ∧ runOps between c1 = .ok c2
      ∧ Get key ttl2 now2 c2
        = .ok (((c.f key c.world).1.1, true, (c.f key c.world).1.2), c2) := by
  obtain ⟨r, c1', hg', hs1, -, -, -, -⟩ := Get_settled c key ttl1 now1 hs ho
  obtain ⟨c1, hg, hp1, hi1, -, -, -⟩ := Get_miss_ptr c key ttl1 now1 ho hk
  have hc : c1' = c1 := by
    rw [hg] at hg'; cases hg'; rfl
  subst hc
  have hkeep : ∀ o ∈ between,
      Op.keeps key (item.deadline (⟨true, wrapInt64 (now1 + ttl1),
        ⟨(c.f key c.world).1.1, (c.f key c.world).1.2⟩⟩ : item V E)) o := by
    intro o ho'
    have := hb o ho'
    cases o <;> simp [Op.isGet] at this
    trivial
  obtain ⟨c2, hrun, hs2, -, hp2, hi2⟩ := runOps_keeps key _ _ between c1' hs1 hp1 hi1 hkeep
  exact ⟨c1', c2, hg, hrun, Get_hit c2 key ttl2 now2 _ _ hp2 hi2 rfl⟩

/-- Witness of C2: `TestKeyIsCached`, with a `Get` of another key in between. -/
theorem Get_then_Get_hits_witness :
    Settled testCache ∧ testCache.items ≠ none ∧ lookupPtr testCache "key" = none
    ∧ (∀ o ∈ [Op.get "other" 5 1], Op.isGet o = true)
    ∧ ∃ c1 c2,
      Get "key" 10000000000 0 testCache = .ok ((some "value", false, none), c1)
      ∧ runOps [Op.get "other" 5 1] c1 = .ok c2
      ∧ Get "key" 10000000000 2 c2 = .ok ((some "value", true, none), c2) :=
  ⟨Settled_NewTMCache _ _, by simp [testCache, NewTMCache], rfl, by simp [Op.isGet],
    Get_then_Get_hits testCache "key" 10000000000 0 10000000000 2 [Op.get "other" 5 1]
      (Settled_NewTMCache _ _) (by simp [testCache, NewTMCache]) rfl (by simp [Op.isGet])⟩

/-- C4: when the computation function returns an error `e` for a key without
entry, the entry keeps `e`: after any sequence of operations that keep the
entry (`Get`s, `Del`s of other keys, sweeps before the deadline) a `Get` of
the key returns the same value and the same error `e` with the hit flag true
and changes nothing, so the computation is not invoked; after an operation
that removes the entry (`Del` of the key, `EraseAll`, a sweep at or after the
deadline) a `Get` of the key invokes the computation again. -/
theorem error_cached_until_removed (c : TMCache V E W) (key : String) (e : E)
    (ttl now ttl2 now2 ttl3 now3 : Int) (keep : List Op) (rm : Op)
    (hs : Settled c) (ho : c.items ≠ none) (hk : lookupPtr c key = none)
    (he : (c.f key c.world).1.2 = some e)
    (hkeep : ∀ o ∈ keep, Op.keeps key (wrapInt64 (now + ttl)) o)
    (hrm : Op.removes key (wrapInt64 (now + ttl)) rm) :
    ∃ c1 c2 c3 c4,
      Get key ttl now c = .ok (((c.f key c.world).1.1, false, some e), c1)
      ∧ runOps keep c1 = .ok c2
      ∧ Get key ttl2 now2 c2 = .ok (((c.f key c.world).1.1, true, some e), c2)
      ∧ rm.apply c2 = .ok c3
      ∧ Get key ttl3 now3 c3
          = .ok (((c3.f key c3.world).1.1, false, (c3.f key c3.world).1.2), c4)
      ∧ c4.calls = c2.calls ++ [key] := by
  obtain ⟨r, c1', hg', hs1, -, -, -, -⟩ := Get_settled c key ttl now hs ho
  obtain ⟨c1, hg, hp1, hi1, -, -, -⟩ := Get_miss_ptr c key ttl now ho hk
  have hc : c1' = c1 := by
    rw [hg] at hg'; cases hg'; rfl
  subst hc
  obtain ⟨c2, hrun, hs2, -, hp2, hi2⟩ := runOps_keeps key _ _ keep c1' hs1 hp1 hi1 hkeep
  obtain ⟨c3, hap, hp3, ho3, -, -, hc3⟩ := apply_removes rm c2 key _ _ hp2 hi2 hrm
  obtain ⟨c4, hg4, -, -, hc4, -, -⟩ := Get_miss_ptr c3 key ttl3 now3 ho3 hp3
  refine ⟨c1', c2, c3, c4, ?_, hrun, ?_, hap, hg4, ?_⟩
  · rw [hg, he]
  · rw [Get_hit c2 key ttl2 now2 _ _ hp2 hi2 rfl, he]
  · rw [hc4, hc3]

/-- Witness of C4: the first call of `flakyFunc` fails; the error is replayed
after a `Get` and a `Del` of another key and a sweep before the deadline, and
a sweep at the deadline makes the next `Get` compute again. -/
theorem error_cached_until_removed_witness :
    Settled flakyCache ∧ flakyCache.items ≠ none ∧ lookupPtr flakyCache "key" = none
    ∧ (flakyCache.f "key" flakyCache.world).1.2 = some "timeout"
    ∧ (∀ o ∈ [Op.get "other" 3 1, Op.del "other", Op.sweep 9],
        Op.keeps "key" (wrapInt64 (0 + 10)) o)
    ∧ Op.removes "key" (wrapInt64 (0 + 10)) (Op.sweep 10)
    ∧ ∃ c1 c2 c3 c4,
      Get "key" 10 0 flakyCache = .ok ((none, false, some "timeout"), c1)
      ∧ runOps [Op.get "other" 3 1, Op.del "other", Op.sweep 9] c1 = .ok c2
      ∧ Get "key" 10 9 c2 = .ok ((none, true, some "timeout"), c2)
      ∧ (Op.sweep 10).apply c2 = .ok c3
      ∧ Get "key" 10 11 c3
          = .ok (((c3.f "key" c3.world).1.1, false, (c3.f "key" c3.world).1.2), c4)
      ∧ c4.calls = c2.calls ++ ["key"] :=
  ⟨Settled_NewTMCache _ _, by simp [flakyCache, NewTMCache], rfl, rfl,
    by simp [Op.keeps, wrapInt64], by simp [Op.removes, wrapInt64],
    error_cached_until_removed flakyCache "key" "timeout" 10 0 10 9 10 11
      [Op.get "other" 3 1, Op.del "other", Op.sweep 9] (Op.sweep 10)
      (Settled_NewTMCache _ _) (by simp [flakyCache, NewTMCache]) rfl rfl
      (by simp [Op.keeps, wrapInt64]) (by simp [Op.removes, wrapInt64])⟩

/-- C5: one sweep at time `now` leaves the items themselves untouched and
keeps exactly the entries whose deadline is strictly greater than `now`: for
every key the item found after the sweep is the item found before, provided
`now < deadline`, and none otherwise (an entry with `deadline = now` is
removed); the pointer of an entry is either the old one or gone. -/
theorem routineCleanup_keeps_exactly_unexpired (now : Int) (c : TMCache V E W) :
    (routineCleanup now c).heap = c.heap
    ∧ ∀ key,
        lookupItem (routineCleanup now c) key
          = (lookupItem c key).filter (fun i => decide (now < i.deadline))
        ∧ (lookupPtr (routineCleanup now c) key = lookupPtr c key
            ∨ lookupPtr (routineCleanup now c) key = none) := by
  refine ⟨(routineCleanup_heap now c).1, fun key => ?_⟩
  have hh := (routineCleanup_heap now c).1
  have hl := lookupPtr_routineCleanup now c key
  cases hp : lookupPtr c key with
  | none =>
    rw [hp] at hl
    simp [lookupItem, hl, hp, Option.filter]
  | some p =>
    rw [hp] at hl
    cases hi : c.heap[p]? with
    | none =>
      have hx : expiredAt c.heap now p = false := by simp [expiredAt, hi]
      simp [Option.filter, hx] at hl
      simp [lookupItem, hl, hp, hh, hi, Option.filter]
    | some i =>
      by_cases hd : i.deadline ≤ now
      · have hx : expiredAt c.heap now p = true := by simp [expiredAt, hi, hd]
        simp [Option.filter, hx] at hl
        have : ¬ now < i.deadline := not_lt.2 hd
        simp [lookupItem, hl, hp, hi, Option.filter, this]
      · have hx : expiredAt c.heap now p = false := by simp [expiredAt, hi, hd]
        simp [Option.filter, hx] at hl
        have : now < i.deadline := not_le.1 hd
        simp [lookupItem, hl, hp, hh, hi, Option.filter, this]

/-- C6, the claim fails: the entry of `warmCache` has deadline 10 s and a sweep
runs at 10 s; then `Close`, which is not a `Get` of the key, and the next
`Get` of the key is not a miss that invokes the computation function: it
panics on the nil map. -/
theorem swept_then_Close_then_Get_panics :
    lookupPtr warmCache "key" = some 0
    ∧ warmCache.heap[0]? = some ⟨true, 10000000000, ⟨some "value", none⟩⟩
    ∧ ∃ c2, runOps [Op.close] (routineCleanup 10000000000 warmCache) = .ok c2
      ∧ Get "key" 7 10000000001 c2 = .error Fault.nilMapAssign :=
  ⟨by decide, rfl, _, rfl, rfl⟩

/-- C6 as amended: when a key has an entry with deadline `d` and a sweep runs
at a time `now ≥ d`, then after any further operations other than a `Get` of
that key and other than `Close`, the next `Get` of the key is a miss: it
invokes the computation function with the key and returns the hit flag
false. -/
theorem swept_then_Get_misses (c : TMCache V E W) (key : String) (p : Nat)
    (i : item V E) (now ttl now2 : Int) (ops : List Op)
    (hs : Settled c) (hp : lookupPtr c key = some p) (hi : c.heap[p]? = some i)
    (hd : i.deadline ≤ now) (hops : ∀ o ∈ ops, Op.noGetOf key o) :
    ∃ c2 c3,
      runOps ops (routineCleanup now c) = .ok c2
      ∧ Get key ttl now2 c2
          = .ok (((c2.f key c2.world).1.1, false, (c2.f key c2.world).1.2), c3)
      ∧ c3.calls = c2.calls ++ [key]
      ∧ c3.world = (c2.f key c2.world).2 := by
  have ho : c.items ≠ none := lookupPtr_ne_none_open c key p hp
  obtain ⟨c1, h1, hs1, ho1, -, -, -⟩ := apply_settled (Op.sweep now) c hs ho (by simp)
  obtain ⟨c1', h1', hp1, -, -, -, -⟩ := apply_removes (Op.sweep now) c key p i hp hi hd
  have hc : c1' = c1 := by
    rw [h1] at h1'; cases h1'; rfl
  subst hc
  have hc1 : c1' = routineCleanup now c := by
    have : (Op.sweep now).apply c = .ok (routineCleanup now c) := rfl
    rw [h1] at this; cases this; rfl
  subst hc1
  obtain ⟨c2, hrun, -, ho2, -, hp2⟩ := runOps_absent key ops _ hs1 ho1 hp1 hops
  obtain ⟨c3, hg, -, -, hcalls, hworld, -⟩ := Get_miss_ptr c2 key ttl now2 ho2 hp2
  exact ⟨c2, c3, hrun, hg, hcalls, hworld⟩

/-- Witness of the amended C6: the entry of `warmCache` has deadline 10 s; a sweep at
exactly 10 s, then a `Get` of another key and a `Del`, then `Get "key"`. -/
theorem swept_then_Get_misses_witness :
    Settled warmCache ∧ lookupPtr warmCache "key" = some 0
    ∧ warmCache.heap[0]? = some ⟨true, 10000000000, ⟨some "value", none⟩⟩
    ∧ (10000000000 : Int) ≤ 10000000000
    ∧ (∀ o ∈ [Op.get "other" 1 2, Op.del "key"], Op.noGetOf "key" o)
    ∧ ∃ c2 c3,
      runOps [Op.get "other" 1 2, Op.del "key"] (routineCleanup 10000000000 warmCache)
        = .ok c2
      ∧ Get "key" 7 10000000001 c2
          = .ok (((c2.f "key" c2.world).1.1, false, (c2.f "key" c2.world).1.2), c3)
      ∧ c3.calls = c2.calls ++ ["key"]
      ∧ c3.world = (c2.f "key" c2.world).2 :=
  ⟨Settled_warmCache, by decide, rfl, le_refl _, by simp [Op.noGetOf],
    swept_then_Get_misses warmCache "key" 0 ⟨true, 10000000000, ⟨some "value", none⟩⟩
      10000000000 7 10000000001 [Op.get "other" 1 2, Op.del "key"]
      Settled_warmCache (by decide) rfl (le_refl _) (by simp [Op.noGetOf])⟩

/-- C8, the claim fails: on an engine after `Close`, `Del` is a no-op on the
nil map and the `Get` that follows does not invoke the computation function:
it panics on the nil map. -/
theorem Del_then_Get_on_closed_panics :
    ∃ c', Close flakyCache = .ok c' ∧ Del "key" c' = c'
      ∧ Get "key" 5 1 (Del "key" c') = .error Fault.nilMapAssign :=
  ⟨_, rfl, rfl, rfl⟩

/-- C8 as amended: on an engine that has not been closed (its map is not nil),
whether or not `key` has an entry, `Del key` followed by `Get key ttl` invokes
the computation function with the key and returns the hit flag false; `Del` of
a key without entry changes nothing; and `Del key` leaves the entry of every
other key as it was. -/
theorem Del_then_Get_misses (c : TMCache V E W) (key : String) (ttl now : Int)
    (ho : c.items ≠ none) :
    (∃ c', Get key ttl now (Del key c)
        = .ok (((c.f key c.world).1.1, false, (c.f key c.world).1.2), c')
      ∧ c'.calls = c.calls ++ [key]
      ∧ c'.world = (c.f key c.world).2)
    ∧ (lookupPtr c key = none → Del key c = c)
    ∧ (∀ k, k ≠ key → lookupPtr (Del key c) k = lookupPtr c k
        ∧ lookupItem (Del key c) k = lookupItem c k) := by
  obtain ⟨hh, hf, hw, hc, -, hn⟩ := Del_frame c key
  refine ⟨?_, Del_absent c key, ?_⟩
  · obtain ⟨c', hg, -, -, hcalls, hworld, -⟩ :=
      Get_miss_ptr (Del key c) key ttl now (fun h => ho (hn.1 h)) (by simp [lookupPtr_Del])
    rw [hf, hw] at hg
    exact ⟨c', hg, by rw [hcalls, hc], by rw [hworld, hf, hw]⟩
  · intro k hk
    have : lookupPtr (Del key c) k = lookupPtr c k := by rw [lookupPtr_Del, if_neg hk]
    exact ⟨this, by simp [lookupItem, this, hh]⟩

/-- Witness of the amended C8 at `warmCache`, whose map holds `"key"`. -/
theorem Del_then_Get_misses_witness :
    warmCache.items ≠ none
    ∧ (∃ c', Get "key" 5 1 (Del "key" warmCache) = .ok ((some "value", false, none), c')
      ∧ c'.calls = warmCache.calls ++ ["key"]
      ∧ c'.world = (warmCache.f "key" warmCache.world).2)
    ∧ (lookupPtr warmCache "key" = none → Del "key" warmCache = warmCache)
    ∧ (∀ k, k ≠ "key" → lookupPtr (Del "key" warmCache) k = lookupPtr warmCache k
        ∧ lookupItem (Del "key" warmCache) k = lookupItem warmCache k) :=
  ⟨by simp [warmCache], Del_then_Get_misses warmCache "key" 5 1 (by simp [warmCache])⟩

/-- C9: after `EraseAll` the map has no entry, whatever the state before; and
for a key that had an entry, the next `Get` invokes the computation function
with the key and returns the hit flag false. -/
theorem EraseAll_then_Get_misses (c : TMCache V E W) (key : String) (p : Nat)
    (ttl now : Int) (hk : lookupPtr c key = some p) :
    (∀ k, lookupPtr (EraseAll c) k = none)
    ∧ (∃ m, (EraseAll c).items = some m ∧ m.entries = [])
    ∧ ∃ c', Get key ttl now (EraseAll c)
        = .ok (((c.f key c.world).1.1, false, (c.f key c.world).1.2), c')
      ∧ c'.calls = c.calls ++ [key]
      ∧ c'.world = (c.f key c.world).2 := by
  have ho : c.items ≠ none := lookupPtr_ne_none_open c key p hk
  obtain ⟨-, hf, hw, hc, -, hn⟩ := EraseAll_frame c
  have ho' : (EraseAll c).items ≠ none := fun h => ho (hn.1 h)
  refine ⟨lookupPtr_EraseAll c, ?_, ?_⟩
  · cases hm : (EraseAll c).items with
    | none => exact absurd hm ho'
    | some m =>
      refine ⟨m, rfl, entries_eq_nil_of_lookup m (fun k => ?_)⟩
      rw [← lookupPtr_of_items _ m hm]
      exact lookupPtr_EraseAll c k
  · obtain ⟨c', hg, -, -, hcalls, hworld, -⟩ :=
      Get_miss_ptr (EraseAll c) key ttl now ho' (lookupPtr_EraseAll c key)
    rw [hf, hw] at hg
    exact ⟨c', hg, by rw [hcalls, hc], by rw [hworld, hf, hw]⟩

/-- Witness of C9 at `warmCache`, whose map holds `"key"`. -/
theorem EraseAll_then_Get_misses_witness :
    lookupPtr warmCache "key" = some 0
    ∧ (∀ k, lookupPtr (EraseAll warmCache) k = none)
    ∧ (∃ m, (EraseAll warmCache).items = some m ∧ m.entries = [])
    ∧ ∃ c', Get "key" 5 1 (EraseAll warmCache) = .ok ((some "value", false, none), c')
      ∧ c'.calls = warmCache.calls ++ ["key"]
      ∧ c'.world = (warmCache.f "key" warmCache.world).2 :=
  ⟨by decide, EraseAll_then_Get_misses warmCache "key" 0 5 1 (by decide)⟩

/-- C10, the claim fails: after `Close` on the cache of the tests, `Get` does
not return a closed-engine error, it does not return at all: the assignment
to the nil map panics. -/
theorem Get_after_Close_panics :
    ∃ c', Close testCache = .ok c'
      ∧ Get "key" 10000000000 0 c' = .error Fault.nilMapAssign
      ∧ ¬ ∃ r, Get "key" 10000000000 0 c' = .ok r :=
  ⟨_, rfl, rfl, by rintro ⟨r, hr⟩; cases hr⟩

/-- C10 as amended: after a `Close` that returned, the map is nil, and a
`Get`, for every key, returns nothing (no value, no error): its critical
section does not complete, so the computation function is not invoked and the
map is not reinitialised. -/
theorem Get_after_Close_returns_nothing (c c' : TMCache V E W) (key : String)
    (ttl now : Int) (h : Close c = .ok c') :
    c'.items = none ∧ c'.done = true
    ∧ (∀ r, getLocked key ttl now c' ≠ .ok r)
    ∧ (∀ r, Get key ttl now c' ≠ .ok r) := by
  unfold Close at h
  by_cases hd : c.done = true
  · simp [hd] at h
  · simp only [hd] at h
    cases h
    refine ⟨rfl, ?_, ?_, ?_⟩
    · cases hm : c.items <;> simp [EraseAll, hm]
    · intro r; simp [getLocked]
    · intro r; simp [Get, getLocked]

/-- Witness of the amended C10 at the cache of the tests. -/
theorem Get_after_Close_returns_nothing_witness :
    ∃ c', Close testCache = .ok c'
      ∧ c'.items = none ∧ c'.done = true
      ∧ (∀ r, getLocked "key" 10000000000 0 c' ≠ .ok r)
      ∧ (∀ r, Get "key" 10000000000 0 c' ≠ .ok r) :=
  ⟨_, rfl, Get_after_Close_returns_nothing testCache _ "key" 10000000000 0 rfl⟩

/-- C7, the code at the input of `TestKeyCleanedAfterTTL`: a fresh cache, a
computation returning `("value", nil)`, `Get(key, 1s)` reading the clock at
`t1`, sweeps, and a second `Get(key, 1s)`.  As long as every sweep in between
has read a clock before the deadline `t1 + 1s`, the second call returns
`"value"` with the hit flag true, whatever time has passed; it returns the hit
flag false once a sweep has read a clock at or after the deadline. -/
theorem second_Get_hits_until_swept (key : String) (t1 t2 : Int) (sweeps : List Int)
    (hr : isInt64 (t1 + 1000000000)) :
    ((∀ t ∈ sweeps, t < t1 + 1000000000) →
      getSweepsGet valueFunc () key 1000000000 t1 sweeps t2
        = .ok ((some "value", false, none), (some "value", true, none)))
    ∧ ((∃ t ∈ sweeps, t1 + 1000000000 ≤ t) →
      getSweepsGet valueFunc () key 1000000000 t1 sweeps t2
        = .ok ((some "value", false, none), (some "value", false, none))) := by
  have ho : (NewTMCache valueFunc ()).items ≠ none := by simp [NewTMCache]
  obtain ⟨r, c1', hg', hs1, -, -, -, -⟩ :=
    Get_settled (NewTMCache valueFunc ()) key 1000000000 t1 (Settled_NewTMCache _ _) ho
  obtain ⟨c1, hg1, hp1, hi1, -, -, hf1⟩ :=
    Get_miss_ptr (NewTMCache valueFunc ()) key 1000000000 t1 ho rfl
  have hc : c1' = c1 := by
    rw [hg1] at hg'; cases hg'; rfl
  subst hc
  rw [wrapInt64_eq _ hr] at hi1
  refine ⟨?_, ?_⟩
  · intro hall
    obtain ⟨c2, hrun, hp2, hi2⟩ := runOps_sweepsAt_keeps key _ _ sweeps c1' hp1 hi1 hall
    have hg2 := Get_hit c2 key 1000000000 t2 _ _ hp2 hi2 rfl
    simp only [getSweepsGet, hg1, hrun, hg2]
    rfl
  · intro hex
    obtain ⟨c2, hrun, ho2, hf2, hp2⟩ :=
      runOps_sweepsAt_removes key _ _ sweeps c1' hs1 hp1 hi1 hex
    obtain ⟨c3, hg3, -, -, -, -, -⟩ := Get_miss_ptr c2 key 1000000000 t2 ho2 hp2
    have hfc2 : c2.f = valueFunc := by rw [hf2, hf1]; rfl
    rw [hfc2] at hg3
    simp only [getSweepsGet, hg1, hrun, hg3]
    rfl

/-- The run of `TestKeyCleanedAfterTTL` in which the test fails: the first
`Get("key", 1s)` reads the clock 1000 ns after the ticker was created, the first
sweep reads the clock at 1 s + 500 ns, before the deadline 1 s + 1000 ns, and
the second `Get`, after the sleep of one second, finds the entry: the hit flag
is true where the test expects false. -/
theorem second_Get_hits_until_swept_witness :
    isInt64 (1000 + 1000000000)
    ∧ (∀ t ∈ [(1000000500 : Int)], t < 1000 + 1000000000)
    ∧ getSweepsGet valueFunc () "key" 1000000000 1000 [1000000500] 1000002000
        = .ok ((some "value", false, none), (some "value", true, none)) :=
  ⟨by decide, by decide,
    (second_Get_hits_until_swept "key" 1000 1000002000 [1000000500] (by decide)).1
      (by decide)⟩

/-- C3: `N ≥ 1` concurrent calls of `Get` on the same key, on a cache without
entry for it, no other operation interleaved.  For every interleaving of their
atomic steps: it can be continued until all calls have returned (no deadlock);
the computation function has been invoked at most once at any point; and once
all `N` calls have returned it has been invoked exactly once, one call has
returned the result of that invocation with the hit flag false and each of the
`N - 1` others has returned the same value and error with the hit flag
true. -/
theorem Get_calls_coalesce (c : TMCache V E W) (m : AList (fun _ : String => Nat))
    (key : String) (ttls : List Int) (sched : List (Nat × Int)) (s : Sys V E W)
    (hm : c.items = some m) (hk : m.lookup key = none) (hn : 1 ≤ ttls.length)
    (hrun : Sys.run (callerSteps sched) (Sys.sameKey c key ttls) = some s) :
    (∃ ext s', Sys.run (callerSteps (sched ++ ext)) (Sys.sameKey c key ttls) = some s'
        ∧ s'.finished = true)
    ∧ (s.cache.calls = c.calls ∨ s.cache.calls = c.calls ++ [key])
    ∧ (s.finished = true →
        s.cache.calls = c.calls ++ [key]
        ∧ ∃ t0, t0 < ttls.length ∧ ∀ t, t < ttls.length →
            (s.callers[t]?).map (fun cl => cl.pc)
              = some (.returned ((c.f key c.world).1.1, decide (t ≠ t0),
                  (c.f key c.world).1.2))) := by
  obtain ⟨hinv, hlen⟩ := Coalesced_run c m key hm hk sched _ s
    (Coalesced_sameKey c m key ttls hm) hrun
  have hlen' : s.callers.length = ttls.length := by
    rw [hlen]; simp [Sys.sameKey]
  refine ⟨?_, Coalesced_calls c key s hinv, ?_⟩
  · obtain ⟨ext, s', hext, hfin⟩ := Coalesced_complete c m key hm hk s.stepsLeft s
      (le_refl _) hinv
    refine ⟨ext, s', ?_, hfin⟩
    have : callerSteps (sched ++ ext) = callerSteps sched ++ callerSteps ext := by
      simp [callerSteps]
    rw [this, run_append _ _ _ s hrun]
    exact hext
  · intro hfin
    have := Coalesced_finished c key s hinv (by rw [hlen']; exact hn) hfin
    rw [hlen'] at this
    exact this

/-- Witness of C3: three calls on the cache of the tests; the second caller
takes the lock first, the others wait for it. -/
theorem Get_calls_coalesce_witness :
    ∃ s, testCache.items = some ∅
      ∧ (∅ : AList (fun _ : String => Nat)).lookup "key" = none
      ∧ 1 ≤ [(1 : Int), 2, 3].length
      ∧ Sys.run (callerSteps [(1, 5), (0, 6), (1, 7), (2, 8), (1, 9), (0, 10), (2, 11)])
          (Sys.sameKey testCache "key" [1, 2, 3]) = some s
      ∧ (∃ ext s', Sys.run
            (callerSteps ([(1, 5), (0, 6), (1, 7), (2, 8), (1, 9), (0, 10), (2, 11)] ++ ext))
            (Sys.sameKey testCache "key" [1, 2, 3]) = some s'
          ∧ s'.finished = true)
      ∧ (s.cache.calls = testCache.calls ∨ s.cache.calls = testCache.calls ++ ["key"])
      ∧ (s.finished = true →
          s.cache.calls = testCache.calls ++ ["key"]
          ∧ ∃ t0, t0 < [(1 : Int), 2, 3].length ∧ ∀ t, t < [(1 : Int), 2, 3].length →
              (s.callers[t]?).map (fun cl => cl.pc)
                = some (.returned (some "value", decide (t ≠ t0), none))) :=
  ⟨_, rfl, rfl, by decide, rfl,
    Get_calls_coalesce testCache ∅ "key" [1, 2, 3]
      [(1, 5), (0, 6), (1, 7), (2, 8), (1, 9), (0, 10), (2, 11)] _ rfl rfl (by decide) rfl⟩

/-- C13: `Get` has no expiry check.  For a key whose entry is complete and
whose deadline is at or before the clock reading `now`, as long as the entry
is in the map `Get` returns the stored value and error with the hit flag true
and changes nothing (the computation function is not invoked); and for every
state and key, what `Get` returns is the same for all clock readings and
lifetimes. -/
theorem Get_ignores_deadline (c : TMCache V E W) (key : String) (p : Nat)
    (i : item V E) (ttl now : Int) (hk : lookupPtr c key = some p)
    (hi : c.heap[p]? = some i) (hd : i.done = true) (_hexp : i.deadline ≤ now) :
    Get key ttl now c = .ok ((i.res.value, true, i.res.err), c)
    ∧ ∀ (c0 : TMCache V E W) (k : String) (ttl1 now1 ttl2 now2 : Int),
        (Get k ttl1 now1 c0).map Prod.fst = (Get k ttl2 now2 c0).map Prod.fst := by
  refine ⟨Get_hit c key ttl now p i hk hi hd, ?_⟩
  intro c0 k ttl1 now1 ttl2 now2
  cases hm : c0.items with
  | none => simp [Get, getLocked, hm]
  | some m =>
    cases hl : m.lookup k with
    | none =>
      simp [Get, getLocked, hm, hl, getReturn, getClose, getCompute, updateItem, Except.map]
    | some q => simp [Get, getLocked, hm, hl]

/-- Witness of C13: the entry of `warmCache` has deadline 10 s; a `Get` at
25 s, with no sweep in between, is a hit. -/
theorem Get_ignores_deadline_witness :
    lookupPtr warmCache "key" = some 0
    ∧ warmCache.heap[0]? = some ⟨true, 10000000000, ⟨some "value", none⟩⟩
    ∧ (10000000000 : Int) ≤ 25000000000
    ∧ Get "key" 1 25000000000 warmCache = .ok ((some "value", true, none), warmCache)
    ∧ ∀ (c0 : TMCache String String Unit) (k : String) (ttl1 now1 ttl2 now2 : Int),
        (Get k ttl1 now1 c0).map Prod.fst = (Get k ttl2 now2 c0).map Prod.fst :=
  ⟨by decide, rfl, by decide,
    Get_ignores_deadline warmCache "key" 0 ⟨true, 10000000000, ⟨some "value", none⟩⟩
      1 25000000000 (by decide) rfl rfl (by decide)⟩

/-- C14, the claim fails: at a clock reading of 1.8e18 ns (the year 2027) a
`Get` with the largest lifetime, `math.MaxInt64`, inserts an entry whose
deadline is not the integer `now + ttl` but that sum wrapped around, a
negative number, and a sweep one nanosecond later, long before `now + ttl`,
removes the entry. -/
theorem deadline_wraps_on_overflow :
    isInt64 1800000000000000000 ∧ isInt64 9223372036854775807
    ∧ ∃ c', Get "key" 9223372036854775807 1800000000000000000 testCache
          = .ok ((some "value", false, none), c')
      ∧ (lookupItem c' "key").map (fun i => i.deadline) = some (-7423372036854775809)
      ∧ (1800000000000000001 : Int) < 1800000000000000000 + 9223372036854775807
      ∧ lookupPtr (routineCleanup 1800000000000000001 c') "key" = none :=
  ⟨by decide, by decide, _, rfl, rfl, by decide, rfl⟩

/-- C14 as amended: for a key without entry, when `now + ttl` is in the range
of `int64`, the entry that `Get(key, ttl)` inserts has the deadline
`now + ttl`, and it survives every sequence of sweeps run at times strictly
before `now + ttl`. -/
theorem deadline_is_sum_in_range (c : TMCache V E W) (m : AList (fun _ : String => Nat))
    (key : String) (ttl now : Int) (ts : List Int)
    (hm : c.items = some m) (hk : m.lookup key = none)
    (hsum : isInt64 (now + ttl)) (hts : ∀ t ∈ ts, t < now + ttl) :
    ∃ r c' c'' i, Get key ttl now c = .ok (r, c')
      ∧ lookupItem c' key = some i ∧ i.deadline = now + ttl
      ∧ runOps (sweepsAt ts) c' = .ok c''
      ∧ lookupItem c'' key = some i := by
  have ho : c.items ≠ none := by rw [hm]; simp
  obtain ⟨c', hg, hp, hi, -, -, -⟩ :=
    Get_miss_ptr c key ttl now ho (by rw [lookupPtr_of_items c m hm]; exact hk)
  rw [wrapInt64_eq _ hsum] at hi
  obtain ⟨c'', hrun, hp2, hi2⟩ :=
    runOps_sweepsAt_keeps key _ _ ts c' hp hi hts
  refine ⟨_, c', c'', ⟨true, now + ttl,
    ⟨(c.f key c.world).1.1, (c.f key c.world).1.2⟩⟩, hg, ?_, rfl, hrun, ?_⟩
  · simp [lookupItem, hp, hi]
  · simp [lookupItem, hp2, hi2]

/-- Witness of the amended C14: `Get("key", 10s)` at time 0 on the cache of the
tests, then sweeps at 1 s, 5 s and one nanosecond before 10 s. -/
theorem deadline_is_sum_in_range_witness :
    testCache.items = some ∅
    ∧ (∅ : AList (fun _ : String => Nat)).lookup "key" = none
    ∧ isInt64 (0 + 10000000000)
    ∧ (∀ t ∈ [(1000000000 : Int), 5000000000, 9999999999], t < 0 + 10000000000)
    ∧ ∃ r c' c'' i, Get "key" 10000000000 0 testCache = .ok (r, c')
      ∧ lookupItem c' "key" = some i ∧ i.deadline = 0 + 10000000000
      ∧ runOps (sweepsAt [1000000000, 5000000000, 9999999999]) c' = .ok c''
      ∧ lookupItem c'' "key" = some i :=
  ⟨rfl, rfl, by decide, by decide,
    deadline_is_sum_in_range testCache ∅ "key" 10000000000 0
      [1000000000, 5000000000, 9999999999] rfl rfl (by decide) (by decide)⟩

/-- C12: for a key that has an entry, the critical section of `Get(key, ttl)`
returns the pointer of that entry and leaves the whole state, map and items,
as it was, whatever `ttl` and the clock reading are, and so does the whole
`Get` when the entry is complete.  No step of the system changes a deadline:
after any event (a step of any caller, `Del`, `EraseAll`, a sweep) and after
`Close`, the item still has its deadline, and the entry either still points to
it or has been removed. -/
theorem existing_entry_deadline_fixed (s s' : Sys V E W) (ev : Event) (key : String)
    (p : Nat) (i : item V E) (ttl now : Int)
    (hk : lookupPtr s.cache key = some p) (hi : s.cache.heap[p]? = some i)
    (hf : s.fire ev = some s') :
    getLocked key ttl now s.cache = .ok (p, true, s.cache)
    ∧ (i.done = true →
        Get key ttl now s.cache = .ok ((i.res.value, true, i.res.err), s.cache))
    ∧ (∃ i' : item V E, s'.cache.heap[p]? = some i' ∧ i'.deadline = i.deadline)
    ∧ (lookupPtr s'.cache key = some p ∨ lookupPtr s'.cache key = none)
    ∧ (∀ c', Close s.cache = .ok c' → c'.heap[p]? = some i ∧ lookupPtr c' key = none) := by
  obtain ⟨hl, hh⟩ := fire_entry s s' ev hf
  refine ⟨getLocked_present s.cache key ttl now p hk,
    fun hd => Get_hit s.cache key ttl now p i hk hi hd, hh p i hi, hl key p hk, ?_⟩
  intro c' hc
  unfold Close at hc
  by_cases hd : s.cache.done = true
  · simp [hd] at hc
  · simp only [hd] at hc
    cases hc
    refine ⟨?_, by simp [lookupPtr]⟩
    have := (EraseAll_frame { s.cache with done := true }).1
    simp only [this]
    exact hi

/-- Witness of C12: a second caller of `Get("key", 99ns)` takes the lock on
`warmCache`, whose entry has deadline 10 s. -/
theorem existing_entry_deadline_fixed_witness :
    lookupPtr warmCache "key" = some 0
    ∧ warmCache.heap[0]? = some ⟨true, 10000000000, ⟨some "value", none⟩⟩
    ∧ ∃ s', Sys.fire (.caller 0 5) (⟨warmCache, [⟨"key", 99, .start⟩]⟩ : Sys String String Unit)
          = some s'
      ∧ getLocked "key" 99 5 warmCache = .ok (0, true, warmCache)
      ∧ (true = true →
          Get "key" 99 5 warmCache = .ok ((some "value", true, none), warmCache))
      ∧ (∃ i' : item String String, s'.cache.heap[0]? = some i'
          ∧ i'.deadline = 10000000000)
      ∧ (lookupPtr s'.cache "key" = some 0 ∨ lookupPtr s'.cache "key" = none)
      ∧ (∀ c', Close warmCache = .ok c' →
          c'.heap[0]? = some ⟨true, 10000000000, ⟨some "value", none⟩⟩
          ∧ lookupPtr c' "key" = none) :=
  ⟨by decide, rfl, _, rfl,
    existing_entry_deadline_fixed ⟨warmCache, [⟨"key", 99, .start⟩]⟩ _ (.caller 0 5) "key" 0
      ⟨true, 10000000000, ⟨some "value", none⟩⟩ 99 5 (by decide) rfl rfl⟩

/-- C11, the claim fails: two callers of `Get("k", 10ns)` on a fresh cache.  The
first takes the lock and creates the entry, `Del("k")` removes the entry while
that computation is in flight, and the second caller creates a new entry: both
are at line 82 for the key `"k"`. -/
theorem two_in_flight_after_Del :
    ∃ s, Sys.run [.caller 0 0, .del "k", .caller 1 1]
          (Sys.initial valueFunc () [("k", 10), ("k", 10)]) = some s
      ∧ s.twoInFlight "k" :=
  ⟨_, rfl, 0, 1, _, _, 0, 1, by decide, rfl, rfl, rfl, rfl, rfl, rfl⟩

/-- C11 as amended: in every state the system reaches from a fresh cache by
steps of callers, `Del`, `EraseAll` and sweeps, two different callers whose
computation is in flight hold different items.  When every event of the run
spares the entries whose computation is in flight (no `Del`, `EraseAll` or
sweep removes the entry of a key while its computation is in flight), no key
has two computations in flight; steps of callers always spare them. -/
theorem in_flight_once_per_key_unless_removed (fn : Func V E W) (w : W)
    (gets : List (String × Int)) (evs : List Event) (s : Sys V E W)
    (hrun : Sys.run evs (Sys.initial fn w gets) = some s) :
    (∀ (t t' : Nat) (cl cl' : Caller V E) (p p' : Nat), t ≠ t' →
        s.callers[t]? = some cl → s.callers[t']? = some cl' →
        cl.pc = .computing p → cl'.pc = .computing p' → p ≠ p')
    ∧ (Sys.sparingRun evs (Sys.initial fn w gets) = true → ∀ key, ¬ s.twoInFlight key)
    ∧ ((∀ ev ∈ evs, ev.isCaller = true) →
        Sys.sparingRun evs (Sys.initial fn w gets) = true) := by
  obtain ⟨hd0, hm0⟩ := distinctInFlight_initial fn w gets
  have hd := distinctInFlight_run evs _ s hd0 hrun
  refine ⟨hd.2, ?_, sparingRun_of_callers evs _⟩
  intro hsp key htwo
  have hm := inFlightInMap_run evs _ s hsp hm0 hrun
  obtain ⟨t, t', cl, cl', p, p', hne, hcl, hcl', hk, hk', hpc, hpc'⟩ := htwo
  have e1 := hm t cl p hcl hpc
  have e2 := hm t' cl' p' hcl' hpc'
  rw [hk] at e1
  rw [hk', e1] at e2
  cases e2
  exact hd.2 t t' cl cl' p p hne hcl hcl' hpc hpc' rfl

/-- Witness of the amended C11: three callers, two of them for the key `"k"`.
The first creates the entry of `"k"`; a `Del` of another key and a sweep before
the deadline spare it; the third computes for the key `"j"` and the second
waits for the entry of `"k"`. -/
theorem in_flight_once_per_key_unless_removed_witness :
    ∃ s, Sys.run [.caller 0 0, .del "j", .sweep 5, .caller 2 6, .caller 1 7]
          (Sys.initial valueFunc () [("k", 10), ("k", 10), ("j", 5)]) = some s
      ∧ Sys.sparingRun [.caller 0 0, .del "j", .sweep 5, .caller 2 6, .caller 1 7]
          (Sys.initial valueFunc () [("k", 10), ("k", 10), ("j", 5)]) = true
      ∧ (∀ (t t' : Nat) (cl cl' : Caller String String) (p p' : Nat), t ≠ t' →
          s.callers[t]? = some cl → s.callers[t']? = some cl' →
          cl.pc = .computing p → cl'.pc = .computing p' → p ≠ p')
      ∧ ∀ key, ¬ s.twoInFlight key :=
  ⟨_, rfl, rfl,
    (in_flight_once_per_key_unless_removed valueFunc () [("k", 10), ("k", 10), ("j", 5)]
      [.caller 0 0, .del "j", .sweep 5, .caller 2 6, .caller 1 7] _ rfl).1,
    (in_flight_once_per_key_unless_removed valueFunc () [("k", 10), ("k", 10), ("j", 5)]
      [.caller 0 0, .del "j", .sweep 5, .caller 2 6, .caller 1 7] _ rfl).2.1 rfl⟩

end tmc
